import Mathlib

/-!
Verification of the dots-and-boxes game engine (`src/lib/mod.rs`,
`src/lib/ai.rs`, `src/lib/minmax.rs`).

Modelling conventions:
* Rust `u32` coordinates and indices are modelled as `Nat`; every arithmetic
  expression in the source stays far below `2^32` for the board sizes the
  program constructs, and `u32` truncating subtraction (`a - b` guarded by
  comparisons in the source) coincides with `Nat` subtraction under those
  guards, so no explicit wraparound modelling is required.
* A Rust panic (out-of-bounds `Vec` indexing, a failed `assert!`/`expect`)
  is modelled by returning `none`; fallible functions therefore live in the
  `Option` monad, with `some` carrying the value the Rust code produces.
* The random number generator (`rand::Rng`) is modelled as an oracle
  `gen : Nat → Nat` giving the result of the i-th `gen_range(0..total)`
  call, together with the hypothesis `gen i < total`; `SliceRandom::choose`
  is modelled by an oracle index reduced modulo the list length.
* The stateful Monte-Carlo evaluator (`MinMaxInterface::heuristic`, which
  mutates its rng across calls) is modelled as an oracle `heur : Nat → Int`
  giving the score returned by the i-th heuristic call of `best_move`.
-/

/-- `enum Player` from `mod.rs`. -/
inductive Player : Type
  | Red : Player
  | Blue : Player
deriving DecidableEq, Repr

/-- `enum CellState` from `mod.rs`: ownership state of an edge or cell. -/
inductive CellState : Type
  | Free : CellState
  | Player : Player → CellState
deriving DecidableEq, Repr

/-- `enum BarDirection` from `mod.rs`. -/
inductive BarDirection : Type
  | Vertical : BarDirection
  | Horizontal : BarDirection
deriving DecidableEq, Repr

/-- `struct BarId` from `mod.rs`: identifies one edge slot. -/
structure BarId : Type where
  direction : BarDirection
  col : Nat
  row : Nat
deriving DecidableEq, Repr

/-- Modelled from the spec: `Player::other` is called by `ai.rs` but its
definition is not among the provided sources; spec §3 specifies it as the
toggle, and `BoardState::do_move` in `mod.rs` writes the same toggle inline
(`Blue => Red, Red => Blue`). -/
def Player.other : Player → Player
  | Player.Red => Player.Blue
  | Player.Blue => Player.Red

/-- `struct BarVec` from `mod.rs`: dense storage for one edge orientation. -/
structure BarVec : Type where
  width : Nat
  height : Nat
  direction : BarDirection
  vec : List CellState
deriving DecidableEq, Repr

namespace BarVec

/-- Modelled from the spec: the `length` field/accessor of `BarVec` is read
by `ai.rs` but absent from the provided `mod.rs`; spec §4.1 fixes it as
`width × height` (the same value the source's `BarVecIdIterator` uses for
its `length` field). -/
def length (v : BarVec) : Nat := v.width * v.height

/-- Modelled from the spec: `BarVec::index_to_id` is called by `ai.rs` but
absent from the provided `mod.rs`; spec §4.1 requires the index↔coordinate
bijection, and the source's `BarVecIdIterator::next` realises it as
`col = index % width`, `row = index / width`. -/
def index_to_id (v : BarVec) (index : Nat) : BarId :=
  { direction := v.direction, col := index % v.width, row := index / v.width }

/-- `BarVec::new`. -/
def new (width height : Nat) (direction : BarDirection) : BarVec :=
  { width := width, height := height, direction := direction,
    vec := List.replicate (width * height) CellState.Free }

/-- `BarVec::get`: `self.vec[(row * self.width + col) as usize]`; `none`
models the out-of-bounds panic. -/
def get (v : BarVec) (col row : Nat) : Option CellState :=
  v.vec.get? (row * v.width + col)

/-- `BarVec::set`: `self.vec[(row * self.width + col) as usize] = state`;
`none` models the out-of-bounds panic. -/
def set (v : BarVec) (col row : Nat) (state : CellState) : Option BarVec :=
  if row * v.width + col < v.vec.length then
    some { v with vec := v.vec.set (row * v.width + col) state }
  else
    none

end BarVec

/-- `struct BoardState` from `mod.rs`. -/
structure BoardState : Type where
  width : Nat
  height : Nat
  cur_turn : Player
  vstates : BarVec
  hstates : BarVec
  cellstates : List CellState
deriving DecidableEq, Repr

namespace BoardState

/-- `BoardState::new`. -/
def new (width height : Nat) : BoardState :=
  { width := width
    height := height
    cur_turn := Player.Red
    vstates := BarVec.new width (height - 1) BarDirection.Vertical
    hstates := BarVec.new (width - 1) height BarDirection.Horizontal
    cellstates := List.replicate ((width - 1) * (height - 1)) CellState.Free }

/-- `BoardState::restart`. -/
def restart (b : BoardState) (starting_player : Player) : BoardState :=
  { b with
    cur_turn := starting_player
    vstates := { b.vstates with
      vec := List.replicate b.vstates.vec.length CellState.Free }
    hstates := { b.hstates with
      vec := List.replicate b.hstates.vec.length CellState.Free }
    cellstates := List.replicate b.cellstates.length CellState.Free }

/-- `BoardState::cell_get`; `none` models the out-of-bounds panic. -/
def cell_get (b : BoardState) (col row : Nat) : Option CellState :=
  b.cellstates.get? (row * (b.width - 1) + col)

/-- `BoardState::cell_set`; `none` models the out-of-bounds panic. -/
def cell_set (b : BoardState) (col row : Nat) (state : CellState) :
    Option BoardState :=
  if row * (b.width - 1) + col < b.cellstates.length then
    some { b with cellstates := b.cellstates.set (row * (b.width - 1) + col) state }
  else
    none

/-- `BoardState::cell_is_full`: the four reads are sequenced like the
short-circuiting Rust `&&` chain, so a panic in a later read is only
reached when the earlier reads were all non-Free. -/
def cell_is_full (b : BoardState) (col row : Nat) : Option Bool :=
  match b.vstates.get col row with
  | none => none
  | some s1 =>
    if s1 = CellState.Free then some false
    else
      match b.vstates.get (col + 1) row with
      | none => none
      | some s2 =>
        if s2 = CellState.Free then some false
        else
          match b.hstates.get col row with
          | none => none
          | some s3 =>
            if s3 = CellState.Free then some false
            else
              match b.hstates.get col (row + 1) with
              | none => none
              | some s4 =>
                if s4 = CellState.Free then some false
                else some true

/-- `BoardState::bar_get`. -/
def bar_get (b : BoardState) (bar : BarId) : Option CellState :=
  match bar.direction with
  | BarDirection.Vertical => b.vstates.get bar.col bar.row
  | BarDirection.Horizontal => b.hstates.get bar.col bar.row

/-- `BoardState::bar_set`. -/
def bar_set (b : BoardState) (bar : BarId) (state : CellState) :
    Option BoardState :=
  match bar.direction with
  | BarDirection.Vertical =>
    match b.vstates.set bar.col bar.row state with
    | none => none
    | some v => some { b with vstates := v }
  | BarDirection.Horizontal =>
    match b.hstates.set bar.col bar.row state with
    | none => none
    | some v => some { b with hstates := v }

/-- `BoardState::bar_neighbors`: the 1–2 candidate cells adjacent to an
edge, pure geometry. -/
def bar_neighbors (b : BoardState) (bar : BarId) : List (Nat × Nat) :=
  match bar.direction with
  | BarDirection.Vertical =>
    (if bar.col ≠ 0 then [(bar.col - 1, bar.row)] else []) ++
    (if bar.col < b.width - 1 then [(bar.col, bar.row)] else [])
  | BarDirection.Horizontal =>
    (if bar.row ≠ 0 then [(bar.col, bar.row - 1)] else []) ++
    (if bar.row < b.height - 1 then [(bar.col, bar.row)] else [])

/-- The `for (neighbor_col, neighbor_row) in neighbors` loop of
`BoardState::do_move`, instrumented to count the completed cells instead of
carrying the source's boolean flag; `point_gained` in the source is exactly
`count ≠ 0`. -/
def do_neighbors (cur_turn : Player) :
    List (Nat × Nat) → Nat → BoardState → Option (Nat × BoardState)
  | [], count, st => some (count, st)
  | (c, r) :: rest, count, st =>
    match st.cell_is_full c r with
    | none => none
    | some full =>
      if full then
        match st.cell_set c r (CellState.Player cur_turn) with
        | none => none
        | some st' => do_neighbors cur_turn rest (count + 1) st'
      else do_neighbors cur_turn rest count st

/-- `BoardState::do_move`, instrumented to also return the number of cells
completed by the move (the source only keeps the boolean `point_gained`,
which equals `count ≠ 0`). -/
def do_move_count (b : BoardState) (bar : BarId) :
    Option (Bool × Nat × BoardState) :=
  let cur_turn := b.cur_turn
  let neighbors := b.bar_neighbors bar
  match b.bar_get bar with
  | none => none
  | some st =>
    if st = CellState.Free then
      match b.bar_set bar (CellState.Player cur_turn) with
      | none => none
      | some b1 =>
        match do_neighbors cur_turn neighbors 0 b1 with
        | none => none
        | some (count, b2) =>
          if count = 0 then
            some (true, count, { b2 with cur_turn := b2.cur_turn.other })
          else
            some (true, count, b2)
    else
      some (false, 0, b)

/-- `BoardState::do_move` as the caller sees it: success flag and new
state. -/
def do_move (b : BoardState) (bar : BarId) : Option (Bool × BoardState) :=
  (b.do_move_count bar).map (fun r => (r.1, r.2.2))

end BoardState

/-- `struct Game` from `mod.rs`, restricted to the fields the claims are
about; the embedded search-engine object (`ai`) is stateless at
construction time beyond its player assignment and is elided. -/
structure Game : Type where
  board : BoardState
  ai_player : Player
deriving DecidableEq, Repr

/-- `<Game as GameTrait>::new`: builds the board and fixes the machine
player to `Player::Blue`. -/
def Game.new (width height : Nat) : Game :=
  { board := BoardState.new width height, ai_player := Player.Blue }

/-! ## The AI layer (`ai.rs`, `minmax.rs`) -/

/-- `intern::AIState` from `ai.rs`: a `BoardState` plus the mutation stack
(a `Vec` pushed at the back; we keep the top of the stack at the head of
the list, so `push` is `cons` and `pop` takes the head). -/
structure AIState : Type where
  board_state : BoardState
  mutation_stack : List BarId
deriving DecidableEq, Repr

namespace AIState

/-- `From<BoardState> for AIState`. -/
def ofBoard (board_state : BoardState) : AIState :=
  { board_state := board_state, mutation_stack := [] }

/-- `AIState::_apply_move` (via `MinMaxState`): the move is pushed onto the
mutation stack before `do_move` runs, even if `do_move` rejects it. -/
def _apply_move (s : AIState) (mv : BarId) : Option (Bool × AIState) :=
  match s.board_state.do_move mv with
  | none => none
  | some (ok, b') => some (ok, { board_state := b', mutation_stack := mv :: s.mutation_stack })

/-- The `neighbors.iter().any(..)` scan of `AIState::_undo_moves`: Rust
`any` short-circuits, so the `assert!` inside the closure only runs for
cells up to and including the first non-Free one; a failed assertion
(`cell_state == Player(cur_turn.other())`) is a panic, modelled `none`. -/
def undo_point_scored (b : BoardState) : List (Nat × Nat) → Option Bool
  | [] => some false
  | (c, r) :: rest =>
    match b.cell_get c r with
    | none => none
    | some cell_state =>
      if cell_state = CellState.Player b.cur_turn.other then none
      else if cell_state ≠ CellState.Free then some true
      else undo_point_scored b rest

/-- The `for cell in neighbors` loop at the end of one `_undo_moves`
iteration: every neighbor cell is cleared back to Free. -/
def clear_cells : List (Nat × Nat) → BoardState → Option BoardState
  | [], st => some st
  | (c, r) :: rest, st =>
    match st.cell_set c r CellState.Free with
    | none => none
    | some st' => clear_cells rest st'

/-- One iteration of the `(0..nr_moves).all(..)` closure in
`AIState::_undo_moves`: pop a move (`expect` on an empty stack panics,
modelled `none`), infer whether it scored from the current neighbor cell
states, infer the previous turn, verify the edge's owner, then clear the
edge and the neighbor cells and restore the turn.  `some (false, _)`
models the closure returning `false` (the edge-owner consistency check
failed). -/
def undo_one (s : AIState) : Option (Bool × AIState) :=
  match s.mutation_stack with
  | [] => none
  | mv :: rest =>
    let b := s.board_state
    let neighbors := b.bar_neighbors mv
    match undo_point_scored b neighbors with
    | none => none
    | some point_scored =>
      let this_turn := if point_scored then b.cur_turn else b.cur_turn.other
      match (match mv.direction with
             | BarDirection.Vertical => b.vstates
             | BarDirection.Horizontal => b.hstates).get mv.col mv.row with
      | none => none
      | some state =>
        if state ≠ CellState.Player this_turn then
          some (false, { board_state := b, mutation_stack := rest })
        else
          match b.bar_set mv CellState.Free with
          | none => none
          | some b1 =>
            match clear_cells neighbors b1 with
            | none => none
            | some b2 =>
              some (true, { board_state := { b2 with cur_turn := this_turn },
                            mutation_stack := rest })

/-- `AIState::_undo_moves`: `(0..nr_moves).all(closure)`, which
short-circuits on the first `false`. -/
def _undo_moves (s : AIState) : Nat → Option (Bool × AIState)
  | 0 => some (true, s)
  | n + 1 =>
    match s.undo_one with
    | none => none
    | some (ok, s') => if ok then s'._undo_moves n else some (false, s')

end AIState

/-- `MinMaxStateCheckpoint::apply`: increments the mutation counter and
`assert!`s that `_apply_move` succeeded, so a rejected move is a panic
(`none`), not a soft failure. -/
def checkpointApply (s : AIState) (mv : BarId) : Option AIState :=
  match s._apply_move mv with
  | none => none
  | some (ok, s') => if ok then some s' else none

/-- Applying a whole list of moves through one checkpoint; the checkpoint's
`mutation_count` after success is the length of the list. -/
def checkpointApplyAll (s : AIState) : List BarId → Option AIState
  | [] => some s
  | mv :: rest =>
    match checkpointApply s mv with
    | none => none
    | some s' => checkpointApplyAll s' rest

/-! ### The legal-move enumerator (`intern::PossibleMovesIter`) -/

/-- Iterator state: the persistent `cur_index` cursor. -/
structure PossibleMovesIter : Type where
  cur_index : Nat
deriving DecidableEq, Repr

/-- The `first_free_from_index` closure of `PossibleMovesIter::next`,
unrolled over the index list `start_index..vec.length`: the first index at
or after `start` whose slot is Free, together with its `BarId`. -/
def find_free_aux (vec : BarVec) : List Nat → Option (Option (BarId × Nat))
  | [] => some none
  | index :: rest =>
    let bar_id := vec.index_to_id index
    match vec.get bar_id.col bar_id.row with
    | none => none
    | some cell_state =>
      if cell_state ≠ CellState.Free then find_free_aux vec rest
      else some (some (bar_id, index))

/-- `first_free_from_index(start_index, vec)`: scans
`start_index..vec.length`. -/
def first_free_from_index (start_index : Nat) (vec : BarVec) :
    Option (Option (BarId × Nat)) :=
  find_free_aux vec (List.range' start_index (vec.length - start_index))

/-- `PossibleMovesIter::next` from `ai.rs`: search the vertical grid from
the cursor; on exhaustion reset the (local) cursor to 0 and fall through to
the horizontal grid; cursors past the vertical grid search the horizontal
grid from `cur_index - vstates.length`.  Returns the yielded item and the
updated iterator. -/
def PossibleMovesIter.next (it : PossibleMovesIter) (state : BoardState) :
    Option (Option BarId × PossibleMovesIter) :=
  let cur_index := it.cur_index
  if cur_index < state.vstates.length then
    match first_free_from_index cur_index state.vstates with
    | none => none
    | some (some (bar_id, index)) => some (some bar_id, { cur_index := index + 1 })
    | some none =>
      -- `cur_index = 0;` then the horizontal branch below
      if (0 : Nat) < state.hstates.length then
        match first_free_from_index 0 state.hstates with
        | none => none
        | some (some (bar_id, index)) =>
          some (some bar_id, { cur_index := index + state.vstates.length + 1 })
        | some none => some (none, it)
      else some (none, it)
  else
    let cur_index := cur_index - state.vstates.length
    if cur_index < state.hstates.length then
      match first_free_from_index cur_index state.hstates with
      | none => none
      | some (some (bar_id, index)) =>
        some (some bar_id, { cur_index := index + state.vstates.length + 1 })
      | some none => some (none, it)
    else some (none, it)

/-- Driving the iterator to exhaustion, with fuel (the length bound proved
in the enumeration theorem shows the fuel below is never the binding
constraint on a well-formed board). -/
def runPossibleMoves (state : BoardState) : Nat → PossibleMovesIter → List BarId
  | 0, _ => []
  | fuel + 1, it =>
    match it.next state with
    | none => []
    | some (none, _) => []
    | some (some mv, it') => mv :: runPossibleMoves state fuel it'

/-- `state.possible_moves().collect::<Vec<_>>()`: the full enumeration from
a fresh iterator (`PossibleMovesIter::new` sets `cur_index = 0`). -/
def possibleMovesList (state : BoardState) : List BarId :=
  runPossibleMoves state (state.vstates.length + state.hstates.length)
    { cur_index := 0 }

/-! ### The search engine (`MinMax::best_move`) and the rollout sampler -/

/-- Rust's `Iterator::max_by_key`: returns the **last** element attaining
the maximal key ("If several elements are equally maximum, the last element
is returned").  The fold keeps the incoming element whenever its key is
`≥` the accumulator's key. -/
def maxByKeyLast (l : List (BarId × Int)) : Option (BarId × Int) :=
  match l with
  | [] => none
  | x :: xs => some (xs.foldl (fun acc y => if acc.2 ≤ y.2 then y else acc) x)

/-- The `possible_moves.into_iter().map(|mv| (mv, heuristic))` stage of
`MinMax::best_move`: the stateful evaluator is modelled as the oracle
`heur`, indexed by the number of evaluator calls made so far (each call
sees the root state plus one speculative move, which the checkpoint
rolls back before the next call — the round-trip theorem). -/
def scoreMoves (heur : Nat → Int) : Nat → List BarId → List (BarId × Int)
  | _, [] => []
  | i, mv :: rest => (mv, heur i) :: scoreMoves heur (i + 1) rest

/-- `MinMax::best_move` for the `AIState` instantiation: collect the legal
moves at the root, score each with the evaluator oracle, pick the
last maximum. -/
def best_move (root : AIState) (heur : Nat → Int) : Option BarId :=
  let possible_moves := possibleMovesList root.board_state
  (maxByKeyLast (scoreMoves heur 0 possible_moves)).map Prod.fst

/-- The slot `random_free_move` examines for a drawn index
`chosen_index < vstates.length + hstates.length`: vertical slots first,
then horizontal. -/
def drawnBar (b : BoardState) (chosen_index : Nat) : BarId :=
  if chosen_index < b.vstates.length then
    b.vstates.index_to_id chosen_index
  else
    b.hstates.index_to_id (chosen_index - b.vstates.length)

/-- The `for _ in 0..3` retry loop of `intern::random_free_move`:
`a` is the index of the next `gen_range` call, `k` the remaining
attempts.  `some none` means all attempts hit occupied slots. -/
def sample_attempts (b : BoardState) (gen : Nat → Nat) :
    Nat → Nat → Option (Option BarId)
  | _, 0 => some none
  | a, k + 1 =>
    let chosen_index := gen a
    let vec := if chosen_index < b.vstates.length then b.vstates else b.hstates
    let index := if chosen_index < b.vstates.length then chosen_index
                 else chosen_index - b.vstates.length
    let bar_id := vec.index_to_id index
    match vec.get bar_id.col bar_id.row with
    | none => none
    | some state =>
      if state = CellState.Free then some (some bar_id)
      else sample_attempts b gen (a + 1) k

/-- `intern::random_free_move`: up to 3 uniform draws over the combined
edge count, then fall back to collecting `possible_moves()` and choosing
uniformly from it (`SliceRandom::choose` modelled by the oracle index
`choose_ix` reduced modulo the list length; on an empty list it returns
`None`, which `List.get?` reproduces). -/
def random_free_move (s : AIState) (gen : Nat → Nat) (choose_ix : Nat) :
    Option (Option BarId) :=
  match sample_attempts s.board_state gen 0 3 with
  | none => none
  | some (some bar_id) => some (some bar_id)
  | some none =>
    let possible_moves := possibleMovesList s.board_state
    some (possible_moves.get? (choose_ix % possible_moves.length))

/-! ### Specification-side definitions and invariants -/

/-- Written from the spec's words (for the enumeration-order claim): the
currently-free edges of one grid, in row-major index order, index `i`
mapping to column `i % width` and row `i / width`. -/
def freeBarsSpec (v : BarVec) : List BarId :=
  (List.range v.length).filterMap (fun i =>
    match v.vec.get? i with
    | some CellState.Free =>
      some { direction := v.direction, col := i % v.width, row := i / v.width }
    | _ => none)

/-- `freeBarsSpec` from a given start index (used to track the iterator's
cursor). -/
def freeBarsSpecFrom (v : BarVec) (start : Nat) : List BarId :=
  (List.range' start (v.length - start)).filterMap (fun i =>
    match v.vec.get? i with
    | some CellState.Free =>
      some { direction := v.direction, col := i % v.width, row := i / v.width }
    | _ => none)

/-- Structural well-formedness of a board: the shape every board built by
`BoardState::new` has (dimensions at least 2, grids dimensioned and
populated to match, directions assigned to the right grids). -/
def BoardState.WF (b : BoardState) : Prop :=
  2 ≤ b.width ∧ 2 ≤ b.height ∧
  b.vstates.width = b.width ∧ b.vstates.height = b.height - 1 ∧
  b.vstates.direction = BarDirection.Vertical ∧
  b.vstates.vec.length = b.width * (b.height - 1) ∧
  b.hstates.width = b.width - 1 ∧ b.hstates.height = b.height ∧
  b.hstates.direction = BarDirection.Horizontal ∧
  b.hstates.vec.length = (b.width - 1) * b.height ∧
  b.cellstates.length = (b.width - 1) * (b.height - 1)

instance (b : BoardState) : Decidable b.WF := by
  unfold BoardState.WF; infer_instance

/-- In-range edge coordinates for the edge's orientation (the coordinate
ranges of spec §3: vertical edges span `width × (height-1)`, horizontal
edges `(width-1) × height`). -/
def BarId.inRange (bar : BarId) (b : BoardState) : Prop :=
  match bar.direction with
  | BarDirection.Vertical => bar.col < b.width ∧ bar.row < b.height - 1
  | BarDirection.Horizontal => bar.col < b.width - 1 ∧ bar.row < b.height

instance (bar : BarId) (b : BoardState) : Decidable (bar.inRange b) := by
  unfold BarId.inRange; cases bar.direction <;> infer_instance

/-- Gameplay consistency: a cell is owned exactly when its four bounding
edges are all owned (spec §3's cell invariant); boards reachable by play
satisfy it. -/
def BoardState.Consistent (b : BoardState) : Prop :=
  ∀ c r, c < b.width - 1 → r < b.height - 1 →
    ((b.cell_get c r ≠ some CellState.Free ∧ b.cell_get c r ≠ none) ↔
      b.cell_is_full c r = some true)

/-- The board states reachable by play: a fresh board (with either starting
player, covering `restart`) followed by any number of successful in-range
moves. -/
inductive BoardState.Reachable : BoardState → Prop
  | base (w h : Nat) (p : Player) (hw : 2 ≤ w) (hh : 2 ≤ h) :
      BoardState.Reachable ((BoardState.new w h).restart p)
  | step (b : BoardState) (bar : BarId) (b' : BoardState)
      (hr : BoardState.Reachable b) (hin : bar.inRange b)
      (hmv : b.do_move bar = some (true, b')) :
      BoardState.Reachable b'

/-! ## Basic lemmas -/

theorem Player.other_ne (p : Player) : p.other ≠ p := by
  cases p <;> simp [Player.other]

theorem Player.other_other (p : Player) : p.other.other = p := by
  cases p <;> simp [Player.other]

theorem list_set_get_self {α : Type} {l : List α} {i : Nat} {a : α}
    (h : l.get? i = some a) : l.set i a = l := by
  apply List.ext_get?_iff.mpr
  intro n
  rcases eq_or_ne i n with rfl | hne
  · rw [List.get?_set_eq_of_lt]
    · exact h.symm
    · exact (List.get?_eq_some.mp h).1
  · exact List.get?_set_ne _ _ hne

theorem idx_lt {col row W H : Nat} (hc : col < W) (hr : row < H) :
    row * W + col < W * H := by
  calc row * W + col < row * W + W := by omega
    _ = (row + 1) * W := by ring
    _ ≤ H * W := Nat.mul_le_mul_right W hr
    _ = W * H := Nat.mul_comm _ _

theorem idx_div {col row W : Nat} (hc : col < W) : (row * W + col) / W = row := by
  have hW : 0 < W := Nat.lt_of_le_of_lt (Nat.zero_le _) hc
  rw [Nat.mul_comm row W, Nat.mul_add_div hW, Nat.div_eq_of_lt hc]
  omega

theorem idx_mod {col row W : Nat} (hc : col < W) : (row * W + col) % W = col := by
  rw [Nat.mul_comm row W, Nat.mul_add_mod, Nat.mod_eq_of_lt hc]

theorem idx_inj {c r c' r' W : Nat} (hc : c < W) (hc' : c' < W)
    (h : r * W + c = r' * W + c') : r = r' ∧ c = c' := by
  have h1 : (r * W + c) / W = (r' * W + c') / W := by rw [h]
  have h2 : (r * W + c) % W = (r' * W + c') % W := by rw [h]
  rw [idx_div hc, idx_div hc'] at h1
  rw [idx_mod hc, idx_mod hc'] at h2
  exact ⟨h1, h2⟩

/-! ## Component lemmas -/

namespace BarVec

theorem set_eq_some {v : BarVec} {col row : Nat} {st : CellState}
    (h : row * v.width + col < v.vec.length) :
    v.set col row st = some { v with vec := v.vec.set (row * v.width + col) st } := by
  simp [BarVec.set, h]

theorem get_eq_some_of_lt {v : BarVec} {col row : Nat}
    (h : row * v.width + col < v.vec.length) :
    ∃ st, v.get col row = some st := by
  rcases List.get?_eq_get h with hg
  exact ⟨_, hg⟩

end BarVec

namespace BoardState

theorem cell_set_eq_some {b : BoardState} {col row : Nat} {st : CellState}
    (h : row * (b.width - 1) + col < b.cellstates.length) :
    b.cell_set col row st =
      some { b with cellstates := b.cellstates.set (row * (b.width - 1) + col) st } := by
  simp [BoardState.cell_set, h]

/-- `cell_is_full` only reads the two edge grids. -/
theorem cell_is_full_congr {b b' : BoardState} (hv : b'.vstates = b.vstates)
    (hh : b'.hstates = b.hstates) (col row : Nat) :
    b'.cell_is_full col row = b.cell_is_full col row := by
  simp only [BoardState.cell_is_full, hv, hh]

/-- `cell_get`/`cell_set` only involve `cellstates` and `width`. -/
theorem cell_get_congr {b b' : BoardState} (hc : b'.cellstates = b.cellstates)
    (hw : b'.width = b.width) (col row : Nat) :
    b'.cell_get col row = b.cell_get col row := by
  simp only [BoardState.cell_get, hc, hw]

theorem WF.vidx_lt {b : BoardState} (hwf : b.WF) {col row : Nat}
    (hc : col < b.width) (hr : row < b.height - 1) :
    row * b.vstates.width + col < b.vstates.vec.length := by
  obtain ⟨_, _, hvw, _, _, hvl, _⟩ := hwf
  rw [hvw, hvl]
  exact idx_lt hc hr

theorem WF.hidx_lt {b : BoardState} (hwf : b.WF) {col row : Nat}
    (hc : col < b.width - 1) (hr : row < b.height) :
    row * b.hstates.width + col < b.hstates.vec.length := by
  obtain ⟨_, _, _, _, _, _, hhw, _, _, hhl, _⟩ := hwf
  rw [hhw, hhl]
  exact idx_lt hc hr

theorem WF.cidx_lt {b : BoardState} (hwf : b.WF) {col row : Nat}
    (hc : col < b.width - 1) (hr : row < b.height - 1) :
    row * (b.width - 1) + col < b.cellstates.length := by
  obtain ⟨_, _, _, _, _, _, _, _, _, _, hcl⟩ := hwf
  rw [hcl]
  exact idx_lt hc hr

/-- On a well-formed board, `cell_is_full` of an in-range cell never
panics. -/
theorem WF.cell_is_full_isSome {b : BoardState} (hwf : b.WF) {col row : Nat}
    (hc : col < b.width - 1) (hr : row < b.height - 1) :
    ∃ f, b.cell_is_full col row = some f := by
  have h1 := BarVec.get_eq_some_of_lt (hwf.vidx_lt (by omega : col < b.width) hr)
  have h2 := BarVec.get_eq_some_of_lt (hwf.vidx_lt (by omega : col + 1 < b.width) hr)
  have h3 := BarVec.get_eq_some_of_lt (hwf.hidx_lt hc (by omega : row < b.height))
  have h4 := BarVec.get_eq_some_of_lt (hwf.hidx_lt hc (by omega : row + 1 < b.height))
  obtain ⟨s1, h1⟩ := h1
  obtain ⟨s2, h2⟩ := h2
  obtain ⟨s3, h3⟩ := h3
  obtain ⟨s4, h4⟩ := h4
  unfold BoardState.cell_is_full
  rw [h1, h2, h3, h4]
  by_cases e1 : s1 = CellState.Free <;> by_cases e2 : s2 = CellState.Free <;>
    by_cases e3 : s3 = CellState.Free <;> by_cases e4 : s4 = CellState.Free <;>
    simp [e1, e2, e3, e4]

/-- If `cell_is_full` returns `true`, each of the four bounding-edge reads
returned an owned state. -/
theorem cell_is_full_true_reads {b : BoardState} {col row : Nat}
    (h : b.cell_is_full col row = some true) :
    b.vstates.get col row ≠ some CellState.Free ∧
    b.vstates.get (col + 1) row ≠ some CellState.Free ∧
    b.hstates.get col row ≠ some CellState.Free ∧
    b.hstates.get col (row + 1) ≠ some CellState.Free := by
  unfold BoardState.cell_is_full at h
  rcases hg1 : b.vstates.get col row with _ | s1 <;> rw [hg1] at h
  · simp at h
  rcases e1 : decide (s1 = CellState.Free) with _ | _
  · rcases hg2 : b.vstates.get (col + 1) row with _ | s2 <;> rw [hg2] at h
    · simp [of_decide_eq_false e1] at h
    rcases e2 : decide (s2 = CellState.Free) with _ | _
    · rcases hg3 : b.hstates.get col row with _ | s3 <;> rw [hg3] at h
      · simp [of_decide_eq_false e1, of_decide_eq_false e2] at h
      rcases e3 : decide (s3 = CellState.Free) with _ | _
      · rcases hg4 : b.hstates.get col (row + 1) with _ | s4 <;> rw [hg4] at h
        · simp [of_decide_eq_false e1, of_decide_eq_false e2, of_decide_eq_false e3] at h
        rcases e4 : decide (s4 = CellState.Free) with _ | _
        · refine ⟨?_, ?_, ?_, ?_⟩ <;>
            simp [hg1, hg2, hg3, hg4, of_decide_eq_false e1, of_decide_eq_false e2,
              of_decide_eq_false e3, of_decide_eq_false e4]
        · simp [of_decide_eq_true e4, of_decide_eq_false e1, of_decide_eq_false e2,
            of_decide_eq_false e3] at h
      · simp [of_decide_eq_true e3, of_decide_eq_false e1, of_decide_eq_false e2] at h
    · simp [of_decide_eq_true e2, of_decide_eq_false e1] at h
  · simp [of_decide_eq_true e1] at h

end BoardState


namespace BoardState

/-- Characterization of the neighbor-completion loop of `do_move`: it
succeeds when every cell's index is in bounds and its fullness test is
defined; it leaves everything but `cellstates` untouched; the returned
count adds the number of full cells to the accumulator; full cells are
overwritten with the mover's color; slots no full cell maps to are
unchanged; and every slot is either unchanged or the mover's color. -/
theorem do_neighbors_spec (p : Player) :
    ∀ (cells : List (Nat × Nat)) (k : Nat) (st : BoardState),
    (∀ cr ∈ cells, cr.2 * (st.width - 1) + cr.1 < st.cellstates.length) →
    (∀ cr ∈ cells, st.cell_is_full cr.1 cr.2 ≠ none) →
    ∃ n st', do_neighbors p cells k st = some (n, st') ∧
      st'.width = st.width ∧ st'.height = st.height ∧
      st'.cur_turn = st.cur_turn ∧
      st'.vstates = st.vstates ∧ st'.hstates = st.hstates ∧
      st'.cellstates.length = st.cellstates.length ∧
      n = k + cells.countP (fun cr => decide (st.cell_is_full cr.1 cr.2 = some true)) ∧
      (∀ cr ∈ cells, st.cell_is_full cr.1 cr.2 = some true →
        st'.cellstates.get? (cr.2 * (st.width - 1) + cr.1) =
          some (CellState.Player p)) ∧
      (∀ i, (∀ cr ∈ cells, cr.2 * (st.width - 1) + cr.1 = i →
          st.cell_is_full cr.1 cr.2 ≠ some true) →
        st'.cellstates.get? i = st.cellstates.get? i) ∧
      (∀ i, st'.cellstates.get? i = st.cellstates.get? i ∨
        st'.cellstates.get? i = some (CellState.Player p))
  | [], k, st, _, _ => by
    refine ⟨k, st, rfl, rfl, rfl, rfl, rfl, rfl, rfl, by simp, by simp, ?_, ?_⟩
    · intro i _; rfl
    · intro i; exact Or.inl rfl
  | (c, r) :: rest, k, st, hidx, hfull => by
    have hcr_idx : r * (st.width - 1) + c < st.cellstates.length :=
      hidx (c, r) (List.mem_cons_self _ _)
    have hcr_full : st.cell_is_full c r ≠ none := hfull (c, r) (List.mem_cons_self _ _)
    rcases hf : st.cell_is_full c r with _ | full
    · exact absurd hf hcr_full
    by_cases hfu : full = true
    · -- the head cell is full: write it, recurse with count + 1
      subst hfu
      have hset := @cell_set_eq_some st c r (CellState.Player p) hcr_idx
      set st1 : BoardState :=
        { st with cellstates :=
            st.cellstates.set (r * (st.width - 1) + c) (CellState.Player p) }
        with hst1
      have hw1 : st1.width = st.width := rfl
      have hl1 : st1.cellstates.length = st.cellstates.length := by
        simp [hst1]
      have hfull1 : ∀ x y, st1.cell_is_full x y = st.cell_is_full x y :=
        fun x y => cell_is_full_congr rfl rfl x y
      obtain ⟨n, st', hrun, hw, hh, ht, hv, hhs, hlen, hcount, hA, hB, hC⟩ :=
        do_neighbors_spec p rest (k + 1) st1
          (fun cr hm => by rw [hw1, hl1]; exact hidx cr (List.mem_cons_of_mem _ hm))
          (fun cr hm => by rw [hfull1]; exact hfull cr (List.mem_cons_of_mem _ hm))
      refine ⟨n, st', ?_, by rw [hw, hw1], by rw [hh], by rw [ht], by rw [hv],
        by rw [hhs], by rw [hlen, hl1], ?_, ?_, ?_, ?_⟩
      · unfold do_neighbors
        rw [hf]
        simp only [if_pos rfl]
        rw [hset]
        exact hrun
      · rw [hcount, List.countP_cons,
          List.countP_congr (fun cr hm => by rw [hfull1])]
        simp [hf]
        omega
      · intro cr hm hcrf
        rcases List.mem_cons.mp hm with rfl | hm'
        · -- the head cell itself: it was written with `Player p`, and every
          -- later write also writes `Player p`
          have h1 : st1.cellstates.get? (r * (st.width - 1) + c) =
              some (CellState.Player p) := by
            rw [hst1]
            exact List.get?_set_eq_of_lt _ hcr_idx
          rcases hC (r * (st.width - 1) + c) with h2 | h2
          · rw [h2, h1]
          · exact h2
        · have h3 := hA cr hm' (by rw [hfull1]; exact hcrf)
          rw [hw1] at h3
          exact h3
      · intro i hnone
        have hne : r * (st.width - 1) + c ≠ i := by
          intro heq
          exact hnone (c, r) (List.mem_cons_self _ _) heq hf
        have h1 : st1.cellstates.get? i = st.cellstates.get? i := by
          rw [hst1]
          exact List.get?_set_ne _ _ hne
        have h2 := hB i (fun cr hm heq => by
          rw [hfull1]
          exact hnone cr (List.mem_cons_of_mem _ hm) heq)
        rw [h2, h1]
      · intro i
        rcases hC i with h2 | h2
        · by_cases hne : r * (st.width - 1) + c = i
          · subst hne
            right
            rw [h2, hst1]
            exact List.get?_set_eq_of_lt _ hcr_idx
          · left
            rw [h2, hst1]
            exact List.get?_set_ne _ _ hne
        · right; exact h2
    · -- the head cell is not full: skip it
      have hfu' : full = false := by
        cases full
        · rfl
        · exact absurd rfl hfu
      subst hfu'
      obtain ⟨n, st', hrun, hw, hh, ht, hv, hhs, hlen, hcount, hA, hB, hC⟩ :=
        do_neighbors_spec p rest k st
          (fun cr hm => hidx cr (List.mem_cons_of_mem _ hm))
          (fun cr hm => hfull cr (List.mem_cons_of_mem _ hm))
      refine ⟨n, st', ?_, hw, hh, ht, hv, hhs, hlen, ?_, ?_, ?_, hC⟩
      · unfold do_neighbors
        rw [hf]
        simp only [Bool.false_eq_true, if_false]
        exact hrun
      · rw [hcount, List.countP_cons]
        simp [hf]
      · intro cr hm hcrf
        rcases List.mem_cons.mp hm with rfl | hm'
        · rw [hf] at hcrf
          simp at hcrf
        · exact hA cr hm' hcrf
      · intro i hnone
        exact hB i (fun cr hm => hnone cr (List.mem_cons_of_mem _ hm))

end BoardState

/-- `cell_is_full` as a function of the four bounding-edge reads. -/
theorem cell_is_full_reads {b : BoardState} {col row : Nat}
    {s1 s2 s3 s4 : CellState}
    (h1 : b.vstates.get col row = some s1)
    (h2 : b.vstates.get (col + 1) row = some s2)
    (h3 : b.hstates.get col row = some s3)
    (h4 : b.hstates.get col (row + 1) = some s4) :
    b.cell_is_full col row =
      some (decide (s1 ≠ CellState.Free) && decide (s2 ≠ CellState.Free) &&
        decide (s3 ≠ CellState.Free) && decide (s4 ≠ CellState.Free)) := by
  unfold BoardState.cell_is_full
  rw [h1, h2, h3, h4]
  by_cases e1 : s1 = CellState.Free <;> by_cases e2 : s2 = CellState.Free <;>
    by_cases e3 : s3 = CellState.Free <;> by_cases e4 : s4 = CellState.Free <;>
    simp [e1, e2, e3, e4]

/-- The undo scan returns `false` when every neighbor cell is Free. -/
theorem undo_point_scored_all_free {b : BoardState} :
    ∀ cells, (∀ cr ∈ cells, b.cell_get cr.1 cr.2 = some CellState.Free) →
    AIState.undo_point_scored b cells = some false
  | [], _ => rfl
  | (c, r) :: rest, h => by
    have hc := h (c, r) (List.mem_cons_self _ _)
    unfold AIState.undo_point_scored
    rw [hc]
    simpa using undo_point_scored_all_free rest
      (fun cr hm => h cr (List.mem_cons_of_mem _ hm))

/-- The undo scan returns `true` when every neighbor cell is Free or owned
by the current player and at least one is owned: the `assert!` inside the
scan never fires because no examined cell is owned by the *other*
player. -/
theorem undo_point_scored_found {b : BoardState} :
    ∀ cells,
    (∀ cr ∈ cells, b.cell_get cr.1 cr.2 = some CellState.Free ∨
      b.cell_get cr.1 cr.2 = some (CellState.Player b.cur_turn)) →
    (∃ cr ∈ cells, b.cell_get cr.1 cr.2 = some (CellState.Player b.cur_turn)) →
    AIState.undo_point_scored b cells = some true
  | [], _, hex => by
    obtain ⟨cr, hm, _⟩ := hex
    exact absurd hm (List.not_mem_nil cr)
  | (c, r) :: rest, h, hex => by
    unfold AIState.undo_point_scored
    rcases h (c, r) (List.mem_cons_self _ _) with hc | hc
    · rw [hc]
      have hrest : AIState.undo_point_scored b rest = some true := by
        refine undo_point_scored_found rest
          (fun cr hm => h cr (List.mem_cons_of_mem _ hm)) ?_
        obtain ⟨cr, hm, hcr⟩ := hex
        rcases List.mem_cons.mp hm with rfl | hm'
        · rw [hc] at hcr
          simp at hcr
        · exact ⟨cr, hm', hcr⟩
      simpa using hrest
    · rw [hc]
      simp [Ne.symm (Player.other_ne b.cur_turn)]

/-- Characterization of the cell-clearing loop of one undo step. -/
theorem clear_cells_spec :
    ∀ (cells : List (Nat × Nat)) (st : BoardState),
    (∀ cr ∈ cells, cr.2 * (st.width - 1) + cr.1 < st.cellstates.length) →
    ∃ st', AIState.clear_cells cells st = some st' ∧
      st'.width = st.width ∧ st'.height = st.height ∧ st'.cur_turn = st.cur_turn ∧
      st'.vstates = st.vstates ∧ st'.hstates = st.hstates ∧
      st'.cellstates.length = st.cellstates.length ∧
      (∀ cr ∈ cells, st'.cellstates.get? (cr.2 * (st.width - 1) + cr.1) =
        some CellState.Free) ∧
      (∀ i, (∀ cr ∈ cells, cr.2 * (st.width - 1) + cr.1 ≠ i) →
        st'.cellstates.get? i = st.cellstates.get? i) ∧
      (∀ i, st'.cellstates.get? i = st.cellstates.get? i ∨
        st'.cellstates.get? i = some CellState.Free)
  | [], st, _ => by
    refine ⟨st, rfl, rfl, rfl, rfl, rfl, rfl, rfl, by simp, ?_, ?_⟩
    · intro i _; rfl
    · intro i; exact Or.inl rfl
  | (c, r) :: rest, st, hidx => by
    have hcr_idx : r * (st.width - 1) + c < st.cellstates.length :=
      hidx (c, r) (List.mem_cons_self _ _)
    have hset := @BoardState.cell_set_eq_some st c r CellState.Free hcr_idx
    set st1 : BoardState :=
      { st with cellstates :=
          st.cellstates.set (r * (st.width - 1) + c) CellState.Free }
      with hst1
    have hw1 : st1.width = st.width := rfl
    have hl1 : st1.cellstates.length = st.cellstates.length := by simp [hst1]
    obtain ⟨st', hrun, hw, hh, ht, hv, hhs, hlen, hA, hB, hC⟩ :=
      clear_cells_spec rest st1
        (fun cr hm => by rw [hw1, hl1]; exact hidx cr (List.mem_cons_of_mem _ hm))
    refine ⟨st', ?_, by rw [hw, hw1], by rw [hh], by rw [ht], by rw [hv],
      by rw [hhs], by rw [hlen, hl1], ?_, ?_, ?_⟩
    · unfold AIState.clear_cells
      rw [hset]
      exact hrun
    · intro cr hm
      rcases List.mem_cons.mp hm with rfl | hm'
      · have h1 : st1.cellstates.get? (r * (st.width - 1) + c) =
            some CellState.Free := by
          rw [hst1]
          exact List.get?_set_eq_of_lt _ hcr_idx
        rcases hC (r * (st.width - 1) + c) with h2 | h2
        · rw [h2, h1]
        · exact h2
      · have h3 := hA cr hm'
        rw [hw1] at h3
        exact h3
    · intro i hnone
      have hne : r * (st.width - 1) + c ≠ i := hnone (c, r) (List.mem_cons_self _ _)
      have h1 : st1.cellstates.get? i = st.cellstates.get? i := by
        rw [hst1]
        exact List.get?_set_ne _ _ hne
      have h2 := hB i (fun cr hm => hnone cr (List.mem_cons_of_mem _ hm))
      rw [h2, h1]
    · intro i
      rcases hC i with h2 | h2
      · by_cases hne : r * (st.width - 1) + c = i
        · subst hne
          right
          rw [h2, hst1]
          exact List.get?_set_eq_of_lt _ hcr_idx
        · left
          rw [h2, hst1]
          exact List.get?_set_ne _ _ hne
      · right; exact h2

namespace BoardState

/-- Neighbor cells of an in-range edge are in-range cells. -/
theorem neighbors_in_range {b : BoardState} {bar : BarId} (hwf : b.WF)
    (hin : bar.inRange b) :
    ∀ cr ∈ b.bar_neighbors bar, cr.1 < b.width - 1 ∧ cr.2 < b.height - 1 := by
  obtain ⟨hw2, hh2, _⟩ := hwf
  intro cr hm
  unfold BoardState.bar_neighbors at hm
  unfold BarId.inRange at hin
  rcases hd : bar.direction with _ | _ <;> rw [hd] at hm hin <;>
    split_ifs at hm <;> simp at hm <;> rcases hm with hm | hm <;>
    first
    | (subst hm; constructor <;> omega)
    | omega

end BoardState

namespace BoardState

/-- Distinct neighbor cells of one edge occupy distinct `cellstates`
slots. -/
theorem neighbors_idx_inj {b : BoardState} {bar : BarId} (hwf : b.WF)
    (hin : bar.inRange b) :
    ∀ cr ∈ b.bar_neighbors bar, ∀ cr' ∈ b.bar_neighbors bar,
      cr.2 * (b.width - 1) + cr.1 = cr'.2 * (b.width - 1) + cr'.1 → cr = cr' := by
  intro cr hm cr' hm' heq
  have h1 := neighbors_in_range hwf hin cr hm
  have h2 := neighbors_in_range hwf hin cr' hm'
  obtain ⟨hr, hc⟩ := idx_inj h1.1 h2.1 heq
  exact Prod.ext hc hr

/-- `cell_is_full` is determined by the four bounding-edge reads. -/
theorem cell_is_full_reads_congr {b b' : BoardState} {col row : Nat}
    (h1 : b'.vstates.get col row = b.vstates.get col row)
    (h2 : b'.vstates.get (col + 1) row = b.vstates.get (col + 1) row)
    (h3 : b'.hstates.get col row = b.hstates.get col row)
    (h4 : b'.hstates.get col (row + 1) = b.hstates.get col (row + 1)) :
    b'.cell_is_full col row = b.cell_is_full col row := by
  unfold BoardState.cell_is_full
  rw [h1, h2, h3, h4]

/-- `bar_set` on a vertical edge, success form. -/
theorem bar_set_vertical {b : BoardState} {bar : BarId} {v : CellState}
    (hd : bar.direction = BarDirection.Vertical)
    (hlt : bar.row * b.vstates.width + bar.col < b.vstates.vec.length) :
    b.bar_set bar v = some { b with vstates := { b.vstates with
      vec := b.vstates.vec.set (bar.row * b.vstates.width + bar.col) v } } := by
  unfold BoardState.bar_set
  rw [hd]
  rw [BarVec.set_eq_some hlt]

/-- `bar_set` on a horizontal edge, success form. -/
theorem bar_set_horizontal {b : BoardState} {bar : BarId} {v : CellState}
    (hd : bar.direction = BarDirection.Horizontal)
    (hlt : bar.row * b.hstates.width + bar.col < b.hstates.vec.length) :
    b.bar_set bar v = some { b with hstates := { b.hstates with
      vec := b.hstates.vec.set (bar.row * b.hstates.width + bar.col) v } } := by
  unfold BoardState.bar_set
  rw [hd]
  rw [BarVec.set_eq_some hlt]

/-- A neighbor cell of a Free edge is not full: the Free edge is one of
its four bounding edges. -/
theorem neighbor_not_full {b : BoardState} {bar : BarId} (hwf : b.WF)
    (hin : bar.inRange b) (hfree : b.bar_get bar = some CellState.Free) :
    ∀ cr ∈ b.bar_neighbors bar, b.cell_is_full cr.1 cr.2 ≠ some true := by
  intro cr hm hfull
  have hreads := cell_is_full_true_reads hfull
  unfold BoardState.bar_neighbors at hm
  unfold BoardState.bar_get at hfree
  rcases hd : bar.direction with _ | _
  · simp only [hd] at hm hfree
    have hleft : bar.col ≠ 0 → cr = (bar.col - 1, bar.row) → False := by
      intro hcol
      rintro rfl
      refine hreads.2.1 ?_
      show b.vstates.get (bar.col - 1 + 1) bar.row = some CellState.Free
      rw [Nat.sub_add_cancel (Nat.one_le_iff_ne_zero.mpr hcol)]
      exact hfree
    have hright : cr = (bar.col, bar.row) → False := by
      rintro rfl
      exact hreads.1 hfree
    split_ifs at hm with h1 h2 h2 <;> simp at hm
    · rcases hm with hm | hm
      · exact hleft h1 hm
      · exact hright hm
    · exact hleft h1 hm
    · exact hright hm
  · simp only [hd] at hm hfree
    have hup : bar.row ≠ 0 → cr = (bar.col, bar.row - 1) → False := by
      intro hrow
      rintro rfl
      refine hreads.2.2.2 ?_
      show b.hstates.get bar.col (bar.row - 1 + 1) = some CellState.Free
      rw [Nat.sub_add_cancel (Nat.one_le_iff_ne_zero.mpr hrow)]
      exact hfree
    have hdown : cr = (bar.col, bar.row) → False := by
      rintro rfl
      exact hreads.2.2.1 hfree
    split_ifs at hm with h1 h2 h2 <;> simp at hm
    · rcases hm with hm | hm
      · exact hup h1 hm
      · exact hdown hm
    · exact hup h1 hm
    · exact hdown hm

end BoardState

namespace BoardState

/-- If `cell_is_full` returns `true`, each of the four bounding-edge reads
produced an owned state. -/
theorem cell_is_full_true_reads_some {b : BoardState} {col row : Nat}
    (h : b.cell_is_full col row = some true) :
    (∃ s, b.vstates.get col row = some s ∧ s ≠ CellState.Free) ∧
    (∃ s, b.vstates.get (col + 1) row = some s ∧ s ≠ CellState.Free) ∧
    (∃ s, b.hstates.get col row = some s ∧ s ≠ CellState.Free) ∧
    (∃ s, b.hstates.get col (row + 1) = some s ∧ s ≠ CellState.Free) := by
  unfold BoardState.cell_is_full at h
  rcases hg1 : b.vstates.get col row with _ | s1 <;> rw [hg1] at h
  · simp at h
  by_cases e1 : s1 = CellState.Free
  · simp [e1] at h
  simp only [e1, if_false] at h
  rcases hg2 : b.vstates.get (col + 1) row with _ | s2 <;> rw [hg2] at h
  · simp at h
  by_cases e2 : s2 = CellState.Free
  · simp [e2] at h
  simp only [e2, if_false] at h
  rcases hg3 : b.hstates.get col row with _ | s3 <;> rw [hg3] at h
  · simp at h
  by_cases e3 : s3 = CellState.Free
  · simp [e3] at h
  simp only [e3, if_false] at h
  rcases hg4 : b.hstates.get col (row + 1) with _ | s4 <;> rw [hg4] at h
  · simp at h
  by_cases e4 : s4 = CellState.Free
  · simp [e4] at h
  exact ⟨⟨s1, rfl, e1⟩, ⟨s2, rfl, e2⟩, ⟨s3, rfl, e3⟩, ⟨s4, rfl, e4⟩⟩

/-- Marking an edge as owned can only make cells fuller: a full cell stays
full under `bar_set` with an owned state. -/
theorem cell_is_full_bar_set_mono {b b1 : BoardState} {bar : BarId} {p : Player}
    (hset : b.bar_set bar (CellState.Player p) = some b1)
    {c r : Nat} (hfull : b.cell_is_full c r = some true) :
    b1.cell_is_full c r = some true := by
  obtain ⟨⟨s1, hg1, e1⟩, ⟨s2, hg2, e2⟩, ⟨s3, hg3, e3⟩, ⟨s4, hg4, e4⟩⟩ :=
    cell_is_full_true_reads_some hfull
  -- a single helper: a get from the updated grid is `some` and non-Free
  -- whenever the old get was
  have hkey : ∀ (v v1 : BarVec) (idx : Nat) (hlt : idx < v.vec.length),
      v1 = { v with vec := v.vec.set idx (CellState.Player p) } →
      ∀ x y s, v.get x y = some s → s ≠ CellState.Free →
      ∃ t, v1.get x y = some t ∧ t ≠ CellState.Free := by
    rintro v v1 idx hlt rfl x y s hg hs
    unfold BarVec.get at hg ⊢
    by_cases he : idx = y * v.width + x
    · subst he
      refine ⟨CellState.Player p, ?_, by simp⟩
      simp only
      exact List.get?_set_eq_of_lt _ hlt
    · refine ⟨s, ?_, hs⟩
      simp only
      rw [List.get?_set_ne _ _ he]
      exact hg
  unfold BoardState.bar_set at hset
  rcases hd : bar.direction with _ | _ <;> rw [hd] at hset
  · rcases hbs : b.vstates.set bar.col bar.row (CellState.Player p) with _ | v1 <;>
      rw [hbs] at hset
    · simp at hset
    unfold BarVec.set at hbs
    by_cases hlt : bar.row * b.vstates.width + bar.col < b.vstates.vec.length
    · rw [if_pos hlt] at hbs
      have hv1 := (Option.some.inj hbs).symm
      have hb1 := (Option.some.inj hset).symm
      obtain ⟨t1, hgt1, ht1⟩ := hkey b.vstates v1 _ hlt hv1 c r s1 hg1 e1
      obtain ⟨t2, hgt2, ht2⟩ := hkey b.vstates v1 _ hlt hv1 (c + 1) r s2 hg2 e2
      have hb1v : b1.vstates = v1 := by rw [hb1]
      have hb1h : b1.hstates = b.hstates := by rw [hb1]
      have r1 : b1.vstates.get c r = some t1 := by rw [hb1v]; exact hgt1
      have r2 : b1.vstates.get (c + 1) r = some t2 := by rw [hb1v]; exact hgt2
      have r3 : b1.hstates.get c r = some s3 := by rw [hb1h]; exact hg3
      have r4 : b1.hstates.get c (r + 1) = some s4 := by rw [hb1h]; exact hg4
      rw [cell_is_full_reads r1 r2 r3 r4]
      simp [ht1, ht2, e3, e4]
    · rw [if_neg hlt] at hbs
      simp at hbs
  · rcases hbs : b.hstates.set bar.col bar.row (CellState.Player p) with _ | h1 <;>
      rw [hbs] at hset
    · simp at hset
    unfold BarVec.set at hbs
    by_cases hlt : bar.row * b.hstates.width + bar.col < b.hstates.vec.length
    · rw [if_pos hlt] at hbs
      have hv1 := (Option.some.inj hbs).symm
      have hb1 := (Option.some.inj hset).symm
      obtain ⟨t3, hgt3, ht3⟩ := hkey b.hstates h1 _ hlt hv1 c r s3 hg3 e3
      obtain ⟨t4, hgt4, ht4⟩ := hkey b.hstates h1 _ hlt hv1 c (r + 1) s4 hg4 e4
      have hb1v : b1.vstates = b.vstates := by rw [hb1]
      have hb1h : b1.hstates = h1 := by rw [hb1]
      have r1 : b1.vstates.get c r = some s1 := by rw [hb1v]; exact hg1
      have r2 : b1.vstates.get (c + 1) r = some s2 := by rw [hb1v]; exact hg2
      have r3 : b1.hstates.get c r = some t3 := by rw [hb1h]; exact hgt3
      have r4 : b1.hstates.get c (r + 1) = some t4 := by rw [hb1h]; exact hgt4
      rw [cell_is_full_reads r1 r2 r3 r4]
      simp [e1, e2, ht3, ht4]
    · rw [if_neg hlt] at hbs
      simp at hbs

end BoardState

namespace BoardState

/-- Membership facts for `bar_neighbors`. -/
theorem left_neighbor_mem {b : BoardState} {bar : BarId}
    (hd : bar.direction = BarDirection.Vertical) (h : bar.col ≠ 0) :
    (bar.col - 1, bar.row) ∈ b.bar_neighbors bar := by
  unfold BoardState.bar_neighbors
  rw [hd, List.mem_append, if_pos h]
  exact Or.inl (List.mem_singleton.mpr rfl)

theorem right_neighbor_mem {b : BoardState} {bar : BarId}
    (hd : bar.direction = BarDirection.Vertical) (h : bar.col < b.width - 1) :
    (bar.col, bar.row) ∈ b.bar_neighbors bar := by
  unfold BoardState.bar_neighbors
  rw [hd, List.mem_append, if_pos h]
  exact Or.inr (List.mem_singleton.mpr rfl)

theorem up_neighbor_mem {b : BoardState} {bar : BarId}
    (hd : bar.direction = BarDirection.Horizontal) (h : bar.row ≠ 0) :
    (bar.col, bar.row - 1) ∈ b.bar_neighbors bar := by
  unfold BoardState.bar_neighbors
  rw [hd, List.mem_append, if_pos h]
  exact Or.inl (List.mem_singleton.mpr rfl)

theorem down_neighbor_mem {b : BoardState} {bar : BarId}
    (hd : bar.direction = BarDirection.Horizontal) (h : bar.row < b.height - 1) :
    (bar.col, bar.row) ∈ b.bar_neighbors bar := by
  unfold BoardState.bar_neighbors
  rw [hd, List.mem_append, if_pos h]
  exact Or.inr (List.mem_singleton.mpr rfl)

/-- Setting an edge does not change the fullness of in-range cells that
are not neighbors of that edge. -/
theorem cell_is_full_bar_set_not_neighbor {b b1 : BoardState} {bar : BarId}
    {v : CellState} (hwf : b.WF) (hin : bar.inRange b)
    (hset : b.bar_set bar v = some b1)
    {c r : Nat} (hc : c < b.width - 1) (hr : r < b.height - 1)
    (hnm : (c, r) ∉ b.bar_neighbors bar) :
    b1.cell_is_full c r = b.cell_is_full c r := by
  obtain ⟨hw2, hh2, hvw, hvh, _, hvl, hhw, hhh, _, hhl, hcl⟩ := hwf
  unfold BoardState.bar_set at hset
  unfold BarId.inRange at hin
  rcases hd : bar.direction with _ | _ <;> simp only [hd] at hset hin <;>
    obtain ⟨hbc, hbr⟩ := hin
  · -- vertical edge: only `vstates` changes
    rcases hbs : b.vstates.set bar.col bar.row v with _ | v1 <;> rw [hbs] at hset
    · simp at hset
    have hb1 := (Option.some.inj hset).symm
    unfold BarVec.set at hbs
    by_cases hlt : bar.row * b.vstates.width + bar.col < b.vstates.vec.length
    swap
    · rw [if_neg hlt] at hbs; simp at hbs
    rw [if_pos hlt] at hbs
    have hv1 := (Option.some.inj hbs).symm
    have hb1v : b1.vstates = v1 := by rw [hb1]
    have hb1h : b1.hstates = b.hstates := by rw [hb1]
    have hne1 : bar.row * b.vstates.width + bar.col ≠ r * b.vstates.width + c := by
      intro heq
      obtain ⟨hrr, hcc⟩ := idx_inj (by rw [hvw]; omega : bar.col < b.vstates.width)
        (by rw [hvw]; omega : c < b.vstates.width) heq
      have hpair : (c, r) = (bar.col, bar.row) := by
        rw [Prod.mk.injEq]; omega
      exact hnm (hpair ▸ right_neighbor_mem hd (by omega))
    have hne2 : bar.row * b.vstates.width + bar.col ≠ r * b.vstates.width + (c + 1) := by
      intro heq
      obtain ⟨hrr, hcc⟩ := idx_inj (by rw [hvw]; omega : bar.col < b.vstates.width)
        (by rw [hvw]; omega : c + 1 < b.vstates.width) heq
      have hpair : (c, r) = (bar.col - 1, bar.row) := by
        rw [Prod.mk.injEq]; omega
      exact hnm (hpair ▸ left_neighbor_mem hd (by omega))
    apply cell_is_full_reads_congr
    · rw [hb1v, hv1]
      unfold BarVec.get
      simp only
      exact List.get?_set_ne _ _ hne1
    · rw [hb1v, hv1]
      unfold BarVec.get
      simp only
      exact List.get?_set_ne _ _ hne2
    · rw [hb1h]
    · rw [hb1h]
  · -- horizontal edge: only `hstates` changes
    rcases hbs : b.hstates.set bar.col bar.row v with _ | h1 <;> rw [hbs] at hset
    · simp at hset
    have hb1 := (Option.some.inj hset).symm
    unfold BarVec.set at hbs
    by_cases hlt : bar.row * b.hstates.width + bar.col < b.hstates.vec.length
    swap
    · rw [if_neg hlt] at hbs; simp at hbs
    rw [if_pos hlt] at hbs
    have hv1 := (Option.some.inj hbs).symm
    have hb1v : b1.vstates = b.vstates := by rw [hb1]
    have hb1h : b1.hstates = h1 := by rw [hb1]
    have hne3 : bar.row * b.hstates.width + bar.col ≠ r * b.hstates.width + c := by
      intro heq
      obtain ⟨hrr, hcc⟩ := idx_inj (by rw [hhw]; omega : bar.col < b.hstates.width)
        (by rw [hhw]; omega : c < b.hstates.width) heq
      have hpair : (c, r) = (bar.col, bar.row) := by
        rw [Prod.mk.injEq]; omega
      exact hnm (hpair ▸ down_neighbor_mem hd (by omega))
    have hne4 : bar.row * b.hstates.width + bar.col ≠ (r + 1) * b.hstates.width + c := by
      intro heq
      obtain ⟨hrr, hcc⟩ := idx_inj (by rw [hhw]; omega : bar.col < b.hstates.width)
        (by rw [hhw]; omega : c < b.hstates.width) heq
      have hpair : (c, r) = (bar.col, bar.row - 1) := by
        rw [Prod.mk.injEq]; omega
      exact hnm (hpair ▸ up_neighbor_mem hd (by omega))
    apply cell_is_full_reads_congr
    · rw [hb1v]
    · rw [hb1v]
    · rw [hb1h, hv1]
      unfold BarVec.get
      simp only
      exact List.get?_set_ne _ _ hne3
    · rw [hb1h, hv1]
      unfold BarVec.get
      simp only
      exact List.get?_set_ne _ _ hne4

end BoardState

theorem BarVec_ext_fields {v v' : BarVec} (h1 : v.width = v'.width)
    (h2 : v.height = v'.height) (h3 : v.direction = v'.direction)
    (h4 : v.vec = v'.vec) : v = v' := by
  cases v; cases v'; simp_all

theorem BoardState_ext_fields {b b' : BoardState} (h1 : b.width = b'.width)
    (h2 : b.height = b'.height) (h3 : b.cur_turn = b'.cur_turn)
    (h4 : b.vstates = b'.vstates) (h5 : b.hstates = b'.hstates)
    (h6 : b.cellstates = b'.cellstates) : b = b' := by
  cases b; cases b'; simp_all

/-- `bar_neighbors` depends only on the board dimensions. -/
theorem BoardState.bar_neighbors_congr {b b' : BoardState}
    (hw : b'.width = b.width) (hh : b'.height = b.height) (bar : BarId) :
    b'.bar_neighbors bar = b.bar_neighbors bar := by
  unfold BoardState.bar_neighbors
  rw [hw, hh]

/-- A successful `bar_set` preserves shape: dimensions, turn, cells, and
the untouched grid, and the touched grid keeps its metadata and length. -/
theorem BoardState.bar_set_success_inv {b b1 : BoardState} {bar : BarId}
    {v : CellState} (hset : b.bar_set bar v = some b1) :
    b1.width = b.width ∧ b1.height = b.height ∧ b1.cur_turn = b.cur_turn ∧
    b1.cellstates = b.cellstates ∧
    b1.vstates.width = b.vstates.width ∧ b1.vstates.height = b.vstates.height ∧
    b1.vstates.direction = b.vstates.direction ∧
    b1.vstates.vec.length = b.vstates.vec.length ∧
    b1.hstates.width = b.hstates.width ∧ b1.hstates.height = b.hstates.height ∧
    b1.hstates.direction = b.hstates.direction ∧
    b1.hstates.vec.length = b.hstates.vec.length := by
  unfold BoardState.bar_set at hset
  rcases hd : bar.direction with _ | _ <;> rw [hd] at hset
  · rcases hbs : b.vstates.set bar.col bar.row v with _ | v1 <;> rw [hbs] at hset
    · simp at hset
    have hb1 := (Option.some.inj hset).symm
    unfold BarVec.set at hbs
    by_cases hlt : bar.row * b.vstates.width + bar.col < b.vstates.vec.length
    swap
    · rw [if_neg hlt] at hbs; simp at hbs
    rw [if_pos hlt] at hbs
    have hv1 := (Option.some.inj hbs).symm
    subst hb1 hv1
    refine ⟨rfl, rfl, rfl, rfl, rfl, rfl, rfl, ?_, rfl, rfl, rfl, rfl⟩
    simp
  · rcases hbs : b.hstates.set bar.col bar.row v with _ | h1 <;> rw [hbs] at hset
    · simp at hset
    have hb1 := (Option.some.inj hset).symm
    unfold BarVec.set at hbs
    by_cases hlt : bar.row * b.hstates.width + bar.col < b.hstates.vec.length
    swap
    · rw [if_neg hlt] at hbs; simp at hbs
    rw [if_pos hlt] at hbs
    have hv1 := (Option.some.inj hbs).symm
    subst hb1 hv1
    refine ⟨rfl, rfl, rfl, rfl, rfl, rfl, rfl, rfl, rfl, rfl, rfl, ?_⟩
    simp

/-- Well-formedness survives a successful `bar_set`. -/
theorem BoardState.WF.bar_set {b b1 : BoardState} {bar : BarId} {v : CellState}
    (hwf : b.WF) (hset : b.bar_set bar v = some b1) : b1.WF := by
  obtain ⟨e1, e2, e3, e4, e5, e6, e7, e8, e9, e10, e11, e12⟩ :=
    BoardState.bar_set_success_inv hset
  obtain ⟨hw2, hh2, hvw, hvh, hvd, hvl, hhw, hhh, hhd, hhl, hcl⟩ := hwf
  exact ⟨by omega, by omega, by rw [e5, hvw, e1], by rw [e6, hvh, e2],
    by rw [e7, hvd], by rw [e8, hvl, e1, e2], by rw [e9, hhw, e1],
    by rw [e10, hhh, e2], by rw [e11, hhd], by rw [e12, hhl, e1, e2],
    by rw [e4, hcl, e1, e2]⟩

/-- Computation of one undo iteration from explicitly supplied
intermediate results. -/
theorem undo_one_step {b' : BoardState} {bar : BarId} {stack : List BarId}
    {ps : Bool} {b1u b2u : BoardState}
    (h1 : AIState.undo_point_scored b' (b'.bar_neighbors bar) = some ps)
    (hstate : (match bar.direction with
        | BarDirection.Vertical => b'.vstates
        | BarDirection.Horizontal => b'.hstates).get bar.col bar.row =
      some (CellState.Player (if ps then b'.cur_turn else b'.cur_turn.other)))
    (hbs : b'.bar_set bar CellState.Free = some b1u)
    (hcc : AIState.clear_cells (b'.bar_neighbors bar) b1u = some b2u) :
    AIState.undo_one ⟨b', bar :: stack⟩ =
      some (true, ⟨{ b2u with
        cur_turn := if ps then b'.cur_turn else b'.cur_turn.other }, stack⟩) := by
  unfold AIState.undo_one
  simp only [h1, hstate, hbs, hcc, ne_eq, not_true_eq_false, if_false,
    reduceCtorEq]

namespace BoardState

/-- A successful `bar_set` on an in-range edge, with the flat index in
bounds derived from well-formedness. -/
theorem bar_set_some_of_inRange {b : BoardState} {bar : BarId} (v : CellState)
    (hwf : b.WF) (hin : bar.inRange b) :
    ∃ b1, b.bar_set bar v = some b1 := by
  unfold BarId.inRange at hin
  rcases hd : bar.direction with _ | _ <;> simp only [hd] at hin
  · exact ⟨_, bar_set_vertical hd (hwf.vidx_lt hin.1 hin.2)⟩
  · exact ⟨_, bar_set_horizontal hd (hwf.hidx_lt hin.1 hin.2)⟩

/-- Successful-move decomposition: on a well-formed board, a move on an
in-range Free edge runs to completion, and `do_move_count` is assembled
from the edge write and the neighbor loop. -/
theorem do_move_free_spec {b : BoardState} {bar : BarId}
    (hwf : b.WF) (hin : bar.inRange b)
    (hfree : b.bar_get bar = some CellState.Free) :
    ∃ b1 n b2,
      b.bar_set bar (CellState.Player b.cur_turn) = some b1 ∧
      do_neighbors b.cur_turn (b.bar_neighbors bar) 0 b1 = some (n, b2) ∧
      b.do_move_count bar = some (true, n,
        if n = 0 then { b2 with cur_turn := b2.cur_turn.other } else b2) := by
  obtain ⟨b1, hset⟩ := bar_set_some_of_inRange (CellState.Player b.cur_turn) hwf hin
  obtain ⟨e1, e2, e3, e4, _⟩ := bar_set_success_inv hset
  have hwf1 : b1.WF := hwf.bar_set hset
  obtain ⟨n, b2, hrun, _⟩ := do_neighbors_spec b.cur_turn (b.bar_neighbors bar) 0 b1
    (fun cr hm => by
      obtain ⟨hc, hr⟩ := neighbors_in_range hwf hin cr hm
      rw [e1, e4]
      exact hwf.cidx_lt hc hr)
    (fun cr hm => by
      obtain ⟨hc, hr⟩ := neighbors_in_range hwf hin cr hm
      obtain ⟨f, hf⟩ := hwf1.cell_is_full_isSome (by rw [e1]; exact hc) (by rw [e2]; exact hr)
      rw [hf]
      simp)
  refine ⟨b1, n, b2, hset, hrun, ?_⟩
  unfold BoardState.do_move_count
  rw [hfree]
  simp only [if_pos rfl, hset, hrun]
  by_cases hn : n = 0 <;> simp [hn]

end BoardState

namespace BoardState

theorem bar_set_vertical_inv {b b1 : BoardState} {bar : BarId} {v : CellState}
    (hd : bar.direction = BarDirection.Vertical)
    (hset : b.bar_set bar v = some b1) :
    bar.row * b.vstates.width + bar.col < b.vstates.vec.length ∧
    b1 = { b with vstates := { b.vstates with
      vec := b.vstates.vec.set (bar.row * b.vstates.width + bar.col) v } } := by
  unfold BoardState.bar_set at hset
  rw [hd] at hset
  rcases hbs : b.vstates.set bar.col bar.row v with _ | v1 <;> rw [hbs] at hset
  · simp at hset
  unfold BarVec.set at hbs
  by_cases hlt : bar.row * b.vstates.width + bar.col < b.vstates.vec.length
  swap
  · rw [if_neg hlt] at hbs; simp at hbs
  rw [if_pos hlt] at hbs
  have hv1 := (Option.some.inj hbs).symm
  have hb1 := (Option.some.inj hset).symm
  subst hv1
  exact ⟨hlt, hb1⟩

theorem bar_set_horizontal_inv {b b1 : BoardState} {bar : BarId} {v : CellState}
    (hd : bar.direction = BarDirection.Horizontal)
    (hset : b.bar_set bar v = some b1) :
    bar.row * b.hstates.width + bar.col < b.hstates.vec.length ∧
    b1 = { b with hstates := { b.hstates with
      vec := b.hstates.vec.set (bar.row * b.hstates.width + bar.col) v } } := by
  unfold BoardState.bar_set at hset
  rw [hd] at hset
  rcases hbs : b.hstates.set bar.col bar.row v with _ | v1 <;> rw [hbs] at hset
  · simp at hset
  unfold BarVec.set at hbs
  by_cases hlt : bar.row * b.hstates.width + bar.col < b.hstates.vec.length
  swap
  · rw [if_neg hlt] at hbs; simp at hbs
  rw [if_pos hlt] at hbs
  have hv1 := (Option.some.inj hbs).symm
  have hb1 := (Option.some.inj hset).symm
  subst hv1
  exact ⟨hlt, hb1⟩

/-- Well-formedness only depends on dimensions, grids and cell count. -/
theorem WF_transport {b b' : BoardState} (hwf : b.WF) (hw : b'.width = b.width)
    (hh : b'.height = b.height) (hv : b'.vstates = b.vstates)
    (hhs : b'.hstates = b.hstates)
    (hcl : b'.cellstates.length = b.cellstates.length) : b'.WF := by
  unfold BoardState.WF at hwf ⊢
  rw [hw, hh, hv, hhs, hcl]
  exact hwf

end BoardState

namespace BoardState

/-- The heart of the round-trip: one successful in-range move on a
well-formed, consistent board preserves well-formedness and consistency,
and `undo_one` run on the resulting state with the move on top of the
mutation stack restores the original board exactly. -/
theorem do_move_step {b : BoardState} {bar : BarId} {n : Nat} {b' : BoardState}
    (hwf : b.WF) (hcons : b.Consistent) (hin : bar.inRange b)
    (hmv : b.do_move_count bar = some (true, n, b')) :
    b'.WF ∧ b'.Consistent ∧ b'.width = b.width ∧ b'.height = b.height ∧
    b'.cellstates.length = b.cellstates.length ∧
    (∀ stack, AIState.undo_one ⟨b', bar :: stack⟩ = some (true, ⟨b, stack⟩)) := by
  -- the moved edge was Free
  have hfree : b.bar_get bar = some CellState.Free := by
    unfold BoardState.do_move_count at hmv
    rcases hg : b.bar_get bar with _ | st <;> rw [hg] at hmv
    · simp at hmv
    by_cases hst : st = CellState.Free
    · rw [hst]
    · simp [hst] at hmv
  obtain ⟨b1, n0, b2, hset, hrun, heq⟩ := do_move_free_spec hwf hin hfree
  have hunif := heq.symm.trans hmv
  simp only [Option.some.injEq, Prod.mk.injEq, true_and] at hunif
  obtain ⟨hn0eq, hb'⟩ := hunif
  subst hn0eq
  have hwf1 : b1.WF := hwf.bar_set hset
  obtain ⟨e1, e2, e3, e4, ev1, ev2, ev3, ev4, eh1, eh2, eh3, eh4⟩ :=
    bar_set_success_inv hset
  obtain ⟨n', b2', hrun', hw2', hh2', ht2', hv2', hhs2', hlen2', hcount, hA, hB, hC⟩ :=
    do_neighbors_spec b.cur_turn (b.bar_neighbors bar) 0 b1
      (fun cr hm => by
        obtain ⟨hc, hr⟩ := neighbors_in_range hwf hin cr hm
        rw [e1, e4]
        exact hwf.cidx_lt hc hr)
      (fun cr hm => by
        obtain ⟨hc, hr⟩ := neighbors_in_range hwf hin cr hm
        obtain ⟨f, hf⟩ := hwf1.cell_is_full_isSome (by rw [e1]; exact hc)
          (by rw [e2]; exact hr)
        rw [hf]
        simp)
  have hunif2 := hrun.symm.trans hrun'
  simp only [Option.some.injEq, Prod.mk.injEq] at hunif2
  obtain ⟨hn'eq, hb2eq⟩ := hunif2
  subst hn'eq
  subst hb2eq
  -- normalize the spec facts to speak about `b`
  rw [e1] at hw2' hA hB
  rw [e2] at hh2'
  rw [e3] at ht2'
  rw [e4] at hlen2' hB
  have hnr := neighbors_in_range hwf hin
  -- every neighbor cell of the Free edge was Free before the move
  have hbFree : ∀ cr ∈ b.bar_neighbors bar,
      b.cell_get cr.1 cr.2 = some CellState.Free := by
    intro cr hm
    obtain ⟨hc, hr⟩ := hnr cr hm
    have hnf := neighbor_not_full hwf hin hfree cr hm
    have hlt := hwf.cidx_lt hc hr
    rcases hgv : b.cell_get cr.1 cr.2 with _ | val
    · exfalso
      unfold BoardState.cell_get at hgv
      rw [List.get?_eq_get hlt] at hgv
      exact Option.noConfusion hgv
    · by_cases hval : val = CellState.Free
      · rw [hval]
      · exfalso
        apply hnf
        refine (hcons cr.1 cr.2 hc hr).mp ⟨?_, ?_⟩
        · rw [hgv]
          intro hcon
          exact hval (Option.some.inj hcon)
        · rw [hgv]
          simp
  -- the post-move value of each neighbor cell
  have hb2val : ∀ cr ∈ b.bar_neighbors bar,
      (b1.cell_is_full cr.1 cr.2 = some true ∧
        b2.cellstates.get? (cr.2 * (b.width - 1) + cr.1) =
          some (CellState.Player b.cur_turn)) ∨
      (b1.cell_is_full cr.1 cr.2 = some false ∧
        b2.cellstates.get? (cr.2 * (b.width - 1) + cr.1) =
          some CellState.Free) := by
    intro cr hm
    obtain ⟨hc, hr⟩ := hnr cr hm
    obtain ⟨f, hf⟩ := hwf1.cell_is_full_isSome (by rw [e1]; exact hc)
      (by rw [e2]; exact hr)
    cases f
    · right
      refine ⟨hf, ?_⟩
      have h2 := hB (cr.2 * (b.width - 1) + cr.1) (fun cr' hm' heq' => by
        have hcr' : cr' = cr := neighbors_idx_inj hwf hin cr' hm' cr hm heq'
        rw [hcr', hf]
        simp)
      rw [h2]
      have h3 := hbFree cr hm
      unfold BoardState.cell_get at h3
      exact h3
    · left
      exact ⟨hf, hA cr hm hf⟩
  -- field facts about the post-move board
  have hb'w : b'.width = b.width := by
    rw [← hb']
    by_cases hn0 : n0 = 0 <;> simp [hn0, hw2']
  have hb'h : b'.height = b.height := by
    rw [← hb']
    by_cases hn0 : n0 = 0 <;> simp [hn0, hh2']
  have hb'v : b'.vstates = b1.vstates := by
    rw [← hb']
    by_cases hn0 : n0 = 0 <;> simp [hn0, hv2']
  have hb'hs : b'.hstates = b1.hstates := by
    rw [← hb']
    by_cases hn0 : n0 = 0 <;> simp [hn0, hhs2']
  have hb'cs : b'.cellstates = b2.cellstates := by
    rw [← hb']
    by_cases hn0 : n0 = 0 <;> simp [hn0]
  have hb'len : b'.cellstates.length = b.cellstates.length := by
    rw [hb'cs, hlen2']
  have hb'turn : b'.cur_turn = (if n0 = 0 then b.cur_turn.other else b.cur_turn) := by
    rw [← hb']
    by_cases hn0 : n0 = 0 <;> simp [hn0, ht2']
  have hwf' : b'.WF := WF_transport hwf1 (by rw [hb'w, e1]) (by rw [hb'h, e2])
    hb'v hb'hs (by rw [hb'cs, hlen2', e4])
  have hcons' : b'.Consistent := by
    intro c r hc hr
    rw [hb'w] at hc
    rw [hb'h] at hr
    have hfix : b'.cell_is_full c r = b1.cell_is_full c r :=
      cell_is_full_congr hb'v hb'hs c r
    have hcg : b'.cell_get c r = b2.cellstates.get? (r * (b.width - 1) + c) := by
      unfold BoardState.cell_get
      rw [hb'cs, hb'w]
    by_cases hmem : (c, r) ∈ b.bar_neighbors bar
    · rcases hb2val (c, r) hmem with ⟨hf, hval⟩ | ⟨hf, hval⟩
      · constructor
        · intro _
          rw [hfix]
          exact hf
        · intro _
          constructor
          · rw [hcg]
            rw [hval]
            simp
          · rw [hcg, hval]
            simp
      · constructor
        · intro hcontra
          exfalso
          exact hcontra.1 (by rw [hcg, hval])
        · intro hcontra
          rw [hfix, hf] at hcontra
          simp at hcontra
    · have hful_eq : b1.cell_is_full c r = b.cell_is_full c r :=
        cell_is_full_bar_set_not_neighbor hwf hin hset hc hr hmem
      have hval : b'.cell_get c r = b.cell_get c r := by
        rw [hcg, hB (r * (b.width - 1) + c) (fun cr hm heq => by
          exfalso
          obtain ⟨hc', hr'⟩ := hnr cr hm
          obtain ⟨hrr, hcc⟩ := idx_inj hc' hc heq
          apply hmem
          have hpr : (c, r) = cr := by
            rw [Prod.mk.injEq]
            omega
          rw [hpr]
          exact hm)]
        unfold BoardState.cell_get
        rfl
      rw [hfix, hful_eq, hval]
      exact hcons c r hc hr
  refine ⟨hwf', hcons', hb'w, hb'h, hb'len, ?_⟩
  -- the undo direction
  intro stack
  -- clearing the edge restores the original grids, and the edge reads
  -- back as the mover's color
  have hundo_core : ∃ b1u, b'.bar_set bar CellState.Free = some b1u ∧
      b1u.vstates = b.vstates ∧ b1u.hstates = b.hstates ∧
      (match bar.direction with
       | BarDirection.Vertical => b'.vstates
       | BarDirection.Horizontal => b'.hstates).get bar.col bar.row =
        some (CellState.Player b.cur_turn) := by
    rcases hdd : bar.direction with _ | _
    · obtain ⟨hlt, hb1eq⟩ := bar_set_vertical_inv hdd hset
      have hb1v : b1.vstates = { b.vstates with
          vec := b.vstates.vec.set (bar.row * b.vstates.width + bar.col)
            (CellState.Player b.cur_turn) } := by rw [hb1eq]
      have hfree_flat : b.vstates.vec.get? (bar.row * b.vstates.width + bar.col) =
          some CellState.Free := by
        unfold BoardState.bar_get at hfree
        rw [hdd] at hfree
        exact hfree
      have hwidth' : b'.vstates.width = b.vstates.width := by
        rw [hb'v, hb1v]
      have hlt' : bar.row * b'.vstates.width + bar.col < b'.vstates.vec.length := by
        rw [hb'v, hb1v]
        simpa using hlt
      refine ⟨_, bar_set_vertical hdd hlt', ?_, ?_, ?_⟩
      · refine BarVec_ext_fields ?_ ?_ ?_ ?_
        · show b'.vstates.width = b.vstates.width
          exact hwidth'
        · show b'.vstates.height = b.vstates.height
          rw [hb'v, hb1v]
        · show b'.vstates.direction = b.vstates.direction
          rw [hb'v, hb1v]
        · show b'.vstates.vec.set (bar.row * b'.vstates.width + bar.col)
            CellState.Free = b.vstates.vec
          rw [hwidth', hb'v, hb1v]
          simp only
          rw [List.set_set]
          exact list_set_get_self hfree_flat
      · show b'.hstates = b.hstates
        rw [hb'hs]
        rw [hb1eq]
      · simp only [hdd]
        show b'.vstates.vec.get? (bar.row * b'.vstates.width + bar.col) =
          some (CellState.Player b.cur_turn)
        rw [hwidth', hb'v, hb1v]
        simp only
        exact List.get?_set_eq_of_lt _ hlt
    · obtain ⟨hlt, hb1eq⟩ := bar_set_horizontal_inv hdd hset
      have hb1v : b1.hstates = { b.hstates with
          vec := b.hstates.vec.set (bar.row * b.hstates.width + bar.col)
            (CellState.Player b.cur_turn) } := by rw [hb1eq]
      have hfree_flat : b.hstates.vec.get? (bar.row * b.hstates.width + bar.col) =
          some CellState.Free := by
        unfold BoardState.bar_get at hfree
        rw [hdd] at hfree
        exact hfree
      have hwidth' : b'.hstates.width = b.hstates.width := by
        rw [hb'hs, hb1v]
      have hlt' : bar.row * b'.hstates.width + bar.col < b'.hstates.vec.length := by
        rw [hb'hs, hb1v]
        simpa using hlt
      refine ⟨_, bar_set_horizontal hdd hlt', ?_, ?_, ?_⟩
      · show b'.vstates = b.vstates
        rw [hb'v]
        rw [hb1eq]
      · refine BarVec_ext_fields ?_ ?_ ?_ ?_
        · show b'.hstates.width = b.hstates.width
          exact hwidth'
        · show b'.hstates.height = b.hstates.height
          rw [hb'hs, hb1v]
        · show b'.hstates.direction = b.hstates.direction
          rw [hb'hs, hb1v]
        · show b'.hstates.vec.set (bar.row * b'.hstates.width + bar.col)
            CellState.Free = b.hstates.vec
          rw [hwidth', hb'hs, hb1v]
          simp only
          rw [List.set_set]
          exact list_set_get_self hfree_flat
      · simp only [hdd]
        show b'.hstates.vec.get? (bar.row * b'.hstates.width + bar.col) =
          some (CellState.Player b.cur_turn)
        rw [hwidth', hb'hs, hb1v]
        simp only
        exact List.get?_set_eq_of_lt _ hlt
  obtain ⟨b1u, hbsu, hb1uv, hb1uh, hread⟩ := hundo_core
  obtain ⟨u1, u2, u3, u4, _⟩ := bar_set_success_inv hbsu
  have hcells' : b'.bar_neighbors bar = b.bar_neighbors bar :=
    bar_neighbors_congr hb'w hb'h bar
  obtain ⟨b2u, hclear, w2u, h2u, t2u, v2u, hs2u, len2u, hA', hB', hC'⟩ :=
    clear_cells_spec (b.bar_neighbors bar) b1u (fun cr hm => by
      obtain ⟨hc, hr⟩ := hnr cr hm
      rw [u1, hb'w, u4, hb'len]
      exact hwf.cidx_lt hc hr)
  rw [u1, hb'w] at hA' hB'
  rw [u4, hb'cs] at hB'
  have hclear' : AIState.clear_cells (b'.bar_neighbors bar) b1u = some b2u := by
    rw [hcells']
    exact hclear
  have hw_f : b2u.width = b.width := by rw [w2u, u1, hb'w]
  have hh_f : b2u.height = b.height := by rw [h2u, u2, hb'h]
  have hv_f : b2u.vstates = b.vstates := by rw [v2u, hb1uv]
  have hhs_f : b2u.hstates = b.hstates := by rw [hs2u, hb1uh]
  have hcell_final : b2u.cellstates = b.cellstates := by
    apply List.ext_get?_iff.mpr
    intro i
    by_cases hex : ∃ cr ∈ b.bar_neighbors bar, cr.2 * (b.width - 1) + cr.1 = i
    · obtain ⟨cr, hm, hidx⟩ := hex
      have h6 := hA' cr hm
      rw [hidx] at h6
      rw [h6]
      have h7 := hbFree cr hm
      unfold BoardState.cell_get at h7
      rw [hidx] at h7
      exact h7.symm
    · push_neg at hex
      rw [hB' i hex]
      exact hB i (fun cr hm heqi => absurd heqi (hex cr hm))
  have hboard : ∀ q, q = b.cur_turn →
      ({ b2u with cur_turn := q } : BoardState) = b := by
    intro q hq
    refine BoardState_ext_fields ?_ ?_ ?_ ?_ ?_ ?_
    · show b2u.width = b.width
      exact hw_f
    · show b2u.height = b.height
      exact hh_f
    · show q = b.cur_turn
      exact hq
    · show b2u.vstates = b.vstates
      exact hv_f
    · show b2u.hstates = b.hstates
      exact hhs_f
    · show b2u.cellstates = b.cellstates
      exact hcell_final
  by_cases hn0 : n0 = 0
  · -- the move completed no cell: the scan sees only Free neighbors and
    -- infers that the previous player was the other one
    have hcount0 : List.countP
        (fun cr => decide (b1.cell_is_full cr.1 cr.2 = some true))
        (b.bar_neighbors bar) = 0 := by omega
    have hallfree : ∀ cr ∈ b'.bar_neighbors bar,
        b'.cell_get cr.1 cr.2 = some CellState.Free := by
      rw [hcells']
      intro cr hm
      rcases hb2val cr hm with ⟨hf, _⟩ | ⟨_, hval⟩
      · exfalso
        have h5 := List.countP_eq_zero.mp hcount0 cr hm
        simp [hf] at h5
      · unfold BoardState.cell_get
        rw [hb'cs, hb'w]
        exact hval
    have hps : AIState.undo_point_scored b' (b'.bar_neighbors bar) = some false :=
      undo_point_scored_all_free _ hallfree
    have hturn_eq : (if (false : Bool) then b'.cur_turn else b'.cur_turn.other) =
        b.cur_turn := by
      simp [hb'turn, hn0, Player.other_other]
    rw [undo_one_step hps (by rw [hturn_eq]; exact hread) hbsu hclear']
    rw [hturn_eq]
    rw [hboard b.cur_turn rfl]
  · -- the move completed a cell: the scan finds an owned neighbor and the
    -- turn did not change
    have hexfull : ∃ cr ∈ b.bar_neighbors bar,
        b1.cell_is_full cr.1 cr.2 = some true := by
      have hpos : 0 < List.countP
          (fun cr => decide (b1.cell_is_full cr.1 cr.2 = some true))
          (b.bar_neighbors bar) := by omega
      obtain ⟨cr, hm, hp⟩ := List.countP_pos.mp hpos
      exact ⟨cr, hm, of_decide_eq_true hp⟩
    have hbt : b'.cur_turn = b.cur_turn := by
      rw [hb'turn]
      simp [hn0]
    have hvals : ∀ cr ∈ b'.bar_neighbors bar,
        b'.cell_get cr.1 cr.2 = some CellState.Free ∨
        b'.cell_get cr.1 cr.2 = some (CellState.Player b'.cur_turn) := by
      rw [hcells']
      intro cr hm
      rcases hb2val cr hm with ⟨_, hval⟩ | ⟨_, hval⟩
      · right
        unfold BoardState.cell_get
        rw [hb'cs, hb'w, hbt]
        exact hval
      · left
        unfold BoardState.cell_get
        rw [hb'cs, hb'w]
        exact hval
    have hexval : ∃ cr ∈ b'.bar_neighbors bar,
        b'.cell_get cr.1 cr.2 = some (CellState.Player b'.cur_turn) := by
      rw [hcells']
      obtain ⟨cr, hm, hf⟩ := hexfull
      rcases hb2val cr hm with ⟨_, hval⟩ | ⟨hf', _⟩
      · refine ⟨cr, hm, ?_⟩
        unfold BoardState.cell_get
        rw [hb'cs, hb'w, hbt]
        exact hval
      · exact absurd (hf.symm.trans hf') (by simp)
    have hps : AIState.undo_point_scored b' (b'.bar_neighbors bar) = some true :=
      undo_point_scored_found _ hvals hexval
    have hturn_eq : (if (true : Bool) then b'.cur_turn else b'.cur_turn.other) =
        b.cur_turn := by
      simp [hbt]
    rw [undo_one_step hps (by rw [hturn_eq]; exact hread) hbsu hclear']
    rw [hturn_eq]
    rw [hboard b.cur_turn rfl]

end BoardState

theorem list_get?_replicate {α : Type} (a : α) :
    ∀ (n i : Nat), (List.replicate n a).get? i = if i < n then some a else none
  | 0, i => by simp
  | n + 1, 0 => by simp [List.replicate]
  | n + 1, i + 1 => by
    simp only [List.replicate, List.get?]
    rw [list_get?_replicate a n i]
    by_cases h : i < n <;> simp [h] <;> omega

namespace BoardState

/-- Inverting `do_move` into the instrumented version. -/
theorem do_move_inv {b : BoardState} {bar : BarId} {ok : Bool} {b' : BoardState}
    (h : b.do_move bar = some (ok, b')) :
    ∃ n, b.do_move_count bar = some (ok, n, b') := by
  unfold BoardState.do_move at h
  rcases hc : b.do_move_count bar with _ | r <;> rw [hc] at h
  · simp at h
  · obtain ⟨o, n, bb⟩ := r
    simp at h
    refine ⟨n, ?_⟩
    rw [h.1, h.2]



/-- A fresh (or freshly restarted) board is well-formed. -/
theorem restart_new_WF {w h : Nat} (hw : 2 ≤ w) (hh : 2 ≤ h) (p : Player) :
    ((BoardState.new w h).restart p).WF := by
  unfold BoardState.WF BoardState.restart BoardState.new BarVec.new
  simp [hw, hh]

/-- A fresh (or freshly restarted) board is consistent: every cell is Free
and no cell is full. -/
theorem restart_new_Consistent {w h : Nat} (hw : 2 ≤ w) (hh : 2 ≤ h) (p : Player) :
    ((BoardState.new w h).restart p).Consistent := by
  intro c r hc hr
  unfold BoardState.restart BoardState.new BarVec.new at hc hr ⊢
  simp only at hc hr
  constructor
  · intro hcontra
    exfalso
    apply hcontra.1
    unfold BoardState.cell_get
    simp only
    rw [list_get?_replicate]
    simp only [List.length_replicate]
    rw [if_pos (idx_lt hc hr)]
  · intro hcontra
    exfalso
    unfold BoardState.cell_is_full BarVec.get at hcontra
    simp only [List.length_replicate] at hcontra
    rw [list_get?_replicate] at hcontra
    have hlt : r * w + c < w * (h - 1) := idx_lt (by omega) hr
    rw [if_pos hlt] at hcontra
    simp at hcontra

/-- Every reachable board is well-formed and consistent. -/
theorem Reachable.wf_consistent {b : BoardState} (hr : b.Reachable) :
    b.WF ∧ b.Consistent := by
  induction hr with
  | base w h p hw hh => exact ⟨restart_new_WF hw hh p, restart_new_Consistent hw hh p⟩
  | step b bar b' hr hin hmv ih =>
    obtain ⟨n, hcnt⟩ := do_move_inv hmv
    obtain ⟨hwf', hcons', _⟩ := do_move_step ih.1 ih.2 hin hcnt
    exact ⟨hwf', hcons'⟩

end BoardState

/-- `inRange` only depends on the board dimensions. -/
theorem BarId.inRange_congr {b b' : BoardState} (hw : b'.width = b.width)
    (hh : b'.height = b.height) (bar : BarId) :
    bar.inRange b' ↔ bar.inRange b := by
  unfold BarId.inRange
  rw [hw, hh]

/-- Appending one more undo onto a successful undo run. -/
theorem AIState.undo_moves_snoc :
    ∀ (m : Nat) (s t u : AIState),
    s._undo_moves m = some (true, t) → t.undo_one = some (true, u) →
    s._undo_moves (m + 1) = some (true, u)
  | 0, s, t, u, h1, h2 => by
    unfold AIState._undo_moves at h1
    simp only [Option.some.injEq, Prod.mk.injEq, true_and] at h1
    subst h1
    unfold AIState._undo_moves
    rw [h2]
    simp [AIState._undo_moves]
  | m + 1, s, t, u, h1, h2 => by
    unfold AIState._undo_moves at h1 ⊢
    rcases ho : s.undo_one with _ | ⟨ok, s1⟩ <;> rw [ho] at h1
    · simp at h1
    cases ok
    · simp at h1
    · simp only [if_true] at h1 ⊢
      exact AIState.undo_moves_snoc m s1 t u h1 h2

/-- Checkpoint round-trip, inductive core: applying a list of in-range
moves through the checkpoint and then undoing that many moves restores
the wrapped state exactly. -/
theorem checkpoint_roundtrip_aux :
    ∀ (ms : List BarId) (s s' : AIState),
    s.board_state.WF → s.board_state.Consistent →
    (∀ mv ∈ ms, mv.inRange s.board_state) →
    checkpointApplyAll s ms = some s' →
    s'._undo_moves ms.length = some (true, s)
  | [], s, s', _, _, _, happ => by
    unfold checkpointApplyAll at happ
    simp only [Option.some.injEq] at happ
    subst happ
    rfl
  | mv :: ms, s, s', hwf, hcons, hin, happ => by
    unfold checkpointApplyAll at happ
    rcases hca : checkpointApply s mv with _ | s1 <;> rw [hca] at happ
    · simp at happ
    -- dissect the single checkpointed apply: it succeeded, so the
    -- underlying do_move returned true
    unfold checkpointApply AIState._apply_move at hca
    rcases hdm : s.board_state.do_move mv with _ | r2 <;> rw [hdm] at hca
    · simp at hca
    obtain ⟨ok2, b1⟩ := r2
    cases ok2
    · simp at hca
    · simp only [if_true, Option.some.injEq] at hca
      obtain ⟨n, hcnt⟩ := BoardState.do_move_inv hdm
      obtain ⟨hwf1, hcons1, hbw, hbh, _, hundo⟩ :=
        BoardState.do_move_step hwf hcons (hin mv (List.mem_cons_self _ _)) hcnt
      have hs1b : s1.board_state = b1 := by rw [← hca]
      have hin1 : ∀ mv' ∈ ms, mv'.inRange s1.board_state := by
        intro mv' hm
        rw [hs1b, BarId.inRange_congr hbw hbh]
        exact hin mv' (List.mem_cons_of_mem _ hm)
      have hwfs1 : s1.board_state.WF := by rw [hs1b]; exact hwf1
      have hconss1 : s1.board_state.Consistent := by rw [hs1b]; exact hcons1
      have hih := checkpoint_roundtrip_aux ms s1 s' hwfs1 hconss1 hin1 happ
      have hu1 : s1.undo_one = some (true, s) := by
        rw [← hca]
        exact hundo s.mutation_stack
      simpa using AIState.undo_moves_snoc ms.length s' s1 s hih hu1

/-- C1: Checkpoint round-trip — for every reachable board wrapped in an
`AIState` and every sequence of in-range moves successfully applied
through a checkpoint (the checkpoint's `apply` asserts each underlying
`_apply_move` returned `true`, so success is legality), running
`_undo_moves` for the length of the sequence — exactly what the
checkpoint's drop does with its mutation counter — succeeds and returns
the state identical to the pre-checkpoint state in every edge slot, every
cell slot, the turn, and the mutation stack, the undo reconstructing each
move purely from current ownership states in LIFO order. -/
theorem C1_checkpoint_roundtrip (s : AIState) (ms : List BarId) (s' : AIState)
    (hr : s.board_state.Reachable)
    (hin : ∀ mv ∈ ms, mv.inRange s.board_state)
    (happly : checkpointApplyAll s ms = some s') :
    s'._undo_moves ms.length = some (true, s) := by
  obtain ⟨hwf, hcons⟩ := hr.wf_consistent
  exact checkpoint_roundtrip_aux ms s s' hwf hcons hin happly

/-- Concrete witness data for the round-trip theorem: a fresh 2×2 board
and two legal moves. -/
def c1Board : BoardState := (BoardState.new 2 2).restart Player.Red

def c1Moves : List BarId :=
  [⟨BarDirection.Vertical, 0, 0⟩, ⟨BarDirection.Horizontal, 0, 0⟩]

def c1After : AIState :=
  ⟨⟨2, 2, Player.Red,
    ⟨2, 1, BarDirection.Vertical, [CellState.Player Player.Red, CellState.Free]⟩,
    ⟨1, 2, BarDirection.Horizontal, [CellState.Player Player.Blue, CellState.Free]⟩,
    [CellState.Free]⟩,
   [⟨BarDirection.Horizontal, 0, 0⟩, ⟨BarDirection.Vertical, 0, 0⟩]⟩

theorem C1_checkpoint_roundtrip_witness :
    (∀ mv ∈ c1Moves, mv.inRange c1Board) ∧
    checkpointApplyAll (AIState.ofBoard c1Board) c1Moves = some c1After ∧
    c1After._undo_moves c1Moves.length = some (true, AIState.ofBoard c1Board) :=
  ⟨by decide, by rfl,
    C1_checkpoint_roundtrip (AIState.ofBoard c1Board) c1Moves c1After
      (BoardState.Reachable.base 2 2 Player.Red (by decide) (by decide))
      (by decide) (by rfl)⟩

namespace BoardState

/-- The neighbor loop never touches the turn. -/
theorem do_neighbors_turn (p : Player) :
    ∀ (cells : List (Nat × Nat)) (k : Nat) (st : BoardState) {n : Nat}
      {st' : BoardState},
    do_neighbors p cells k st = some (n, st') → st'.cur_turn = st.cur_turn
  | [], k, st, n, st', h => by
    unfold do_neighbors at h
    simp only [Option.some.injEq, Prod.mk.injEq] at h
    rw [← h.2]
  | (c, r) :: rest, k, st, n, st', h => by
    unfold do_neighbors at h
    rcases hf : st.cell_is_full c r with _ | full <;> rw [hf] at h
    · simp at h
    cases full
    · simp only [Bool.false_eq_true, if_false] at h
      exact do_neighbors_turn p rest k st h
    · simp only [if_true] at h
      rcases hcs : st.cell_set c r (CellState.Player p) with _ | st1 <;> rw [hcs] at h
      · simp at h
      have ht1 : st1.cur_turn = st.cur_turn := by
        unfold BoardState.cell_set at hcs
        by_cases hlt : r * (st.width - 1) + c < st.cellstates.length
        · rw [if_pos hlt] at hcs
          rw [← Option.some.inj hcs]
        · rw [if_neg hlt] at hcs
          simp at hcs
      rw [do_neighbors_turn p rest (k + 1) st1 h, ht1]

end BoardState

/-- C4: Turn-transfer postcondition — after every successfully applied
move, the turn has passed to the other player iff the move completed zero
cells, and stays with the mover iff it completed at least one cell. -/
theorem C4_turn_transfer (b : BoardState) (bar : BarId) (n : Nat) (b' : BoardState)
    (h : b.do_move_count bar = some (true, n, b')) :
    (b'.cur_turn = b.cur_turn.other ↔ n = 0) ∧
    (b'.cur_turn = b.cur_turn ↔ 0 < n) := by
  have hne := Player.other_ne b.cur_turn
  unfold BoardState.do_move_count at h
  rcases hg : b.bar_get bar with _ | st <;> rw [hg] at h
  · simp at h
  by_cases hst : st = CellState.Free
  swap
  · simp [hst] at h
  rcases hbs : b.bar_set bar (CellState.Player b.cur_turn) with _ | b1 <;>
    simp only [hbs] at h
  · simp [hst] at h
  rcases hdn : BoardState.do_neighbors b.cur_turn (b.bar_neighbors bar) 0 b1
      with _ | r <;> simp only [hdn] at h
  · simp [hst] at h
  obtain ⟨n2, b2⟩ := r
  have hturn2 : b2.cur_turn = b.cur_turn := by
    rw [BoardState.do_neighbors_turn b.cur_turn _ _ _ hdn]
    exact (BoardState.bar_set_success_inv hbs).2.2.1
  by_cases hn : n2 = 0
  · simp only [hst, if_pos rfl, hn, if_true] at h
    simp at h
    obtain ⟨hnn, hbb⟩ := h
    rw [← hbb]
    constructor
    · constructor
      · intro _
        omega
      · intro _
        show b2.cur_turn.other = b.cur_turn.other
        rw [hturn2]
    · constructor
      · intro hcontra
        exfalso
        apply hne
        have hcontra2 : b2.cur_turn.other = b.cur_turn := hcontra
        rw [hturn2] at hcontra2
        exact hcontra2
      · intro h0
        exfalso
        omega
  · simp only [hst, if_pos rfl, hn, if_false] at h
    simp at h
    obtain ⟨hnn, hbb⟩ := h
    rw [← hbb, hturn2]
    constructor
    · constructor
      · intro hcontra
        exact absurd hcontra.symm hne
      · intro _
        exfalso
        omega
    · constructor
      · intro _
        omega
      · intro _
        rfl

/-- Witness board for the turn-transfer theorem: the first vertical edge
completes no cell, so the turn passes from Red to Blue. -/
def c4After : BoardState :=
  ⟨2, 2, Player.Blue,
   ⟨2, 1, BarDirection.Vertical, [CellState.Player Player.Red, CellState.Free]⟩,
   ⟨1, 2, BarDirection.Horizontal, [CellState.Free, CellState.Free]⟩,
   [CellState.Free]⟩

theorem C4_turn_transfer_witness :
    c1Board.do_move_count ⟨BarDirection.Vertical, 0, 0⟩ = some (true, 0, c4After) ∧
    ((c4After.cur_turn = c1Board.cur_turn.other ↔ (0 : Nat) = 0) ∧
      (c4After.cur_turn = c1Board.cur_turn ↔ 0 < (0 : Nat))) :=
  ⟨by rfl, C4_turn_transfer c1Board ⟨BarDirection.Vertical, 0, 0⟩ 0 c4After (by rfl)⟩

/-- C5: Soft-fail atomicity — on a well-formed board, `do_move` on an
in-range edge that is already Owned returns `false` with the state object
unchanged (no mutation at all), and on a Free edge it succeeds with
`true`. -/
theorem C5_soft_fail (b : BoardState) (bar : BarId) (hwf : b.WF)
    (hin : bar.inRange b) :
    (∀ p, b.bar_get bar = some (CellState.Player p) →
      b.do_move bar = some (false, b)) ∧
    (b.bar_get bar = some CellState.Free →
      ∃ b', b.do_move bar = some (true, b')) := by
  constructor
  · intro p hp
    unfold BoardState.do_move BoardState.do_move_count
    rw [hp]
    simp
  · intro hfree
    obtain ⟨b1, n, b2, _, _, heq⟩ := BoardState.do_move_free_spec hwf hin hfree
    refine ⟨if n = 0 then { b2 with cur_turn := b2.cur_turn.other } else b2, ?_⟩
    unfold BoardState.do_move
    rw [heq]
    rfl

theorem C5_soft_fail_witness :
    c4After.WF ∧ (⟨BarDirection.Vertical, 0, 0⟩ : BarId).inRange c4After ∧
    c4After.bar_get ⟨BarDirection.Vertical, 0, 0⟩ =
      some (CellState.Player Player.Red) ∧
    c4After.do_move ⟨BarDirection.Vertical, 0, 0⟩ = some (false, c4After) :=
  ⟨by decide, by decide, by decide,
    (C5_soft_fail c4After ⟨BarDirection.Vertical, 0, 0⟩ (by decide) (by decide)).1
      Player.Red (by rfl)⟩

/-- C10: Implicit initial setup — `BoardState::new` always starts with
Red to move and every edge and cell Free, and `Game::new` fixes the
machine player to Blue, so the non-machine player Red moves first. -/
theorem C10_initial_setup (w h : Nat) :
    (Game.new w h).ai_player = Player.Blue ∧
    (Game.new w h).board = BoardState.new w h ∧
    (BoardState.new w h).cur_turn = Player.Red ∧
    (Game.new w h).board.cur_turn ≠ (Game.new w h).ai_player ∧
    (∀ cs ∈ (BoardState.new w h).vstates.vec, cs = CellState.Free) ∧
    (∀ cs ∈ (BoardState.new w h).hstates.vec, cs = CellState.Free) ∧
    (∀ cs ∈ (BoardState.new w h).cellstates, cs = CellState.Free) := by
  refine ⟨rfl, rfl, rfl, by simp [Game.new, BoardState.new], ?_, ?_, ?_⟩ <;>
    intro cs hm <;>
    exact List.eq_of_mem_replicate hm

/-- C2 counterexample: out-of-range coordinates are not rejected softly.
`(Vertical, col 0, row 1)` is out of range on a 2×2 board and its
flattened index falls outside the vertical grid's array, so `do_move`
panics (models `none`), which is fatal rather than a boolean failure; and
`(Vertical, col 2, row 0)` is out of range on a 2×3 board but its
flattened index aliases the slot of `(Vertical, col 0, row 1)`, so
`do_move` **succeeds** and mutates the board instead of rejecting the
move. -/
theorem C2_out_of_range_counterexample :
    (¬ (⟨BarDirection.Vertical, 0, 1⟩ : BarId).inRange (BoardState.new 2 2)) ∧
    (BoardState.new 2 2).do_move ⟨BarDirection.Vertical, 0, 1⟩ = none ∧
    (¬ (⟨BarDirection.Vertical, 2, 0⟩ : BarId).inRange (BoardState.new 2 3)) ∧
    (BoardState.new 2 3).do_move ⟨BarDirection.Vertical, 2, 0⟩ =
      some (true, ⟨2, 3, Player.Blue,
        ⟨2, 2, BarDirection.Vertical,
          [CellState.Free, CellState.Free, CellState.Player Player.Red,
            CellState.Free]⟩,
        ⟨1, 3, BarDirection.Horizontal,
          [CellState.Free, CellState.Free, CellState.Free]⟩,
        [CellState.Free, CellState.Free]⟩) :=
  ⟨by decide, by rfl, by decide, by rfl⟩

/-- C2 as amended: a move whose flattened index
`row * width + col` lies outside the backing array of its orientation's
edge grid makes `do_move` panic (an out-of-bounds `Vec` index, modelled
`none`) — it is fatal, not a reported boolean failure. -/
theorem C2_out_of_range_fatal (b : BoardState) (bar : BarId)
    (hoob : (match bar.direction with
      | BarDirection.Vertical => b.vstates
      | BarDirection.Horizontal => b.hstates).vec.length ≤
      bar.row * (match bar.direction with
      | BarDirection.Vertical => b.vstates
      | BarDirection.Horizontal => b.hstates).width + bar.col) :
    b.do_move bar = none := by
  unfold BoardState.do_move BoardState.do_move_count BoardState.bar_get BarVec.get
  rcases hd : bar.direction with _ | _ <;> simp only [hd] at hoob ⊢ <;>
    rw [List.get?_eq_none.mpr hoob] <;> rfl

theorem C2_out_of_range_fatal_witness :
    (BoardState.new 2 2).vstates.vec.length ≤
      1 * (BoardState.new 2 2).vstates.width + 0 ∧
    (BoardState.new 2 2).do_move ⟨BarDirection.Vertical, 0, 1⟩ = none :=
  ⟨by decide,
    C2_out_of_range_fatal (BoardState.new 2 2) ⟨BarDirection.Vertical, 0, 1⟩
      (by decide)⟩

theorem div_mul_add_mod (start w : Nat) : start / w * w + start % w = start := by
  rw [Nat.mul_comm]
  exact Nat.div_add_mod start w

/-- `freeBarsSpecFrom` at the end of the grid is empty. -/
theorem freeBarsSpecFrom_end (v : BarVec) {c : Nat} (h : v.length ≤ c) :
    freeBarsSpecFrom v c = [] := by
  unfold freeBarsSpecFrom
  rw [Nat.sub_eq_zero_of_le h]
  rfl

/-- `freeBarsSpec` is `freeBarsSpecFrom` at cursor 0. -/
theorem freeBarsSpec_eq_from_zero (v : BarVec) :
    freeBarsSpec v = freeBarsSpecFrom v 0 := by
  unfold freeBarsSpec freeBarsSpecFrom
  rw [Nat.sub_zero, List.range_eq_range']

/-- Characterization of `first_free_from_index` on a grid whose array has
the advertised length: it never panics, returns `none` exactly when no
free slot remains at or after the cursor, and otherwise returns the first
free slot, which is also the head of the remaining free-edge listing. -/
theorem first_free_spec (v : BarVec) (hlen : v.vec.length = v.length) :
    ∀ (cnt start : Nat), start + cnt = v.length →
    (first_free_from_index start v = some none ∧ freeBarsSpecFrom v start = []) ∨
    (∃ i, first_free_from_index start v = some (some (v.index_to_id i, i)) ∧
      start ≤ i ∧ i < v.length ∧
      freeBarsSpecFrom v start = v.index_to_id i :: freeBarsSpecFrom v (i + 1))
  | 0, start, hsum => by
    left
    constructor
    · unfold first_free_from_index
      rw [Nat.sub_eq_zero_of_le (by omega)]
      rfl
    · exact freeBarsSpecFrom_end v (by omega)
  | cnt + 1, start, hsum => by
    have hstart : start < v.length := by omega
    have hget : ∃ st, v.vec.get? start = some st := by
      refine ⟨_, List.get?_eq_get ?_⟩
      omega
    obtain ⟨st, hst⟩ := hget
    have hflat : v.vec.get? (start / v.width * v.width + start % v.width) =
        some st := by
      rw [div_mul_add_mod]
      exact hst
    have hrange : List.range' start (v.length - start) =
        start :: List.range' (start + 1) (v.length - (start + 1)) := by
      have h1 : v.length - start = (v.length - (start + 1)) + 1 := by omega
      rw [h1, List.range'_succ]
    have hff : first_free_from_index start v =
        (if st = CellState.Free
          then some (some (v.index_to_id start, start))
          else first_free_from_index (start + 1) v) := by
      unfold first_free_from_index
      rw [hrange]
      conv_lhs => unfold find_free_aux
      unfold BarVec.index_to_id BarVec.get
      simp only
      rw [hflat]
      by_cases he : st = CellState.Free
      · simp [he, BarVec.index_to_id]
      · simp [he]
    by_cases he : st = CellState.Free
    · right
      refine ⟨start, ?_, Nat.le_refl start, hstart, ?_⟩
      · rw [hff, if_pos he]
      · unfold freeBarsSpecFrom
        rw [hrange, List.filterMap_cons, hst, he]
        rfl
    · have hrec := first_free_spec v hlen cnt (start + 1) (by omega)
      have hspec2 : freeBarsSpecFrom v start = freeBarsSpecFrom v (start + 1) := by
        unfold freeBarsSpecFrom
        rw [hrange, List.filterMap_cons, hst]
        rcases st with _ | p
        · exact absurd rfl he
        · rfl
      rcases hrec with ⟨hf1, hf2⟩ | ⟨i, hf1, hf2, hf3, hf4⟩
      · left
        rw [hff, if_neg he, hspec2]
        exact ⟨hf1, hf2⟩
      · right
        refine ⟨i, ?_, by omega, hf3, ?_⟩
        · rw [hff, if_neg he]
          exact hf1
        · rw [hspec2]
          exact hf4

theorem BoardState.WF.vlen {b : BoardState} (hwf : b.WF) :
    b.vstates.vec.length = b.vstates.length := by
  obtain ⟨_, _, hvw, hvh, _, hvl, _⟩ := hwf
  unfold BarVec.length
  rw [hvl, hvw, hvh]

theorem BoardState.WF.hlen {b : BoardState} (hwf : b.WF) :
    b.hstates.vec.length = b.hstates.length := by
  obtain ⟨_, _, _, _, _, _, hhw, hhh, _, hhl, _⟩ := hwf
  unfold BarVec.length
  rw [hhl, hhw, hhh]

/-- Full characterization of driving `PossibleMovesIter` to exhaustion:
with the cursor in the vertical segment it yields the remaining free
vertical edges then all free horizontal edges; with the cursor past the
vertical segment it yields the remaining free horizontal edges. -/
theorem run_spec (b : BoardState)
    (hv : b.vstates.vec.length = b.vstates.length)
    (hh : b.hstates.vec.length = b.hstates.length) :
    ∀ (fuel c : Nat),
    (c ≤ b.vstates.length →
      (freeBarsSpecFrom b.vstates c).length + (freeBarsSpec b.hstates).length ≤ fuel →
      runPossibleMoves b fuel ⟨c⟩ =
        freeBarsSpecFrom b.vstates c ++ freeBarsSpec b.hstates) ∧
    (b.vstates.length < c →
      (freeBarsSpecFrom b.hstates (c - b.vstates.length)).length ≤ fuel →
      runPossibleMoves b fuel ⟨c⟩ =
        freeBarsSpecFrom b.hstates (c - b.vstates.length))
  | 0, c => by
    constructor
    · intro _ hlen
      have h1 : freeBarsSpecFrom b.vstates c = [] :=
        List.length_eq_zero.mp (by omega)
      have h2 : freeBarsSpec b.hstates = [] :=
        List.length_eq_zero.mp (by omega)
      rw [h1, h2]
      rfl
    · intro _ hlen
      have h1 : freeBarsSpecFrom b.hstates (c - b.vstates.length) = [] :=
        List.length_eq_zero.mp (by omega)
      rw [h1]
      rfl
  | fuel + 1, c => by
    constructor
    · intro hc hlen
      by_cases hcv : c < b.vstates.length
      · -- the cursor is inside the vertical segment
        rcases first_free_spec b.vstates hv (b.vstates.length - c) c (by omega)
            with ⟨hf1, hf2⟩ | ⟨i, hf1, hle, hlt, hf4⟩
        · -- no free vertical edge remains: fall through to horizontal
          by_cases hpos : 0 < b.hstates.length
          · rcases first_free_spec b.hstates hh b.hstates.length 0 (by omega)
                with ⟨hg1, hg2⟩ | ⟨j, hg1, hjle, hjlt, hg4⟩
            · rw [hf2, freeBarsSpec_eq_from_zero, hg2]
              unfold runPossibleMoves PossibleMovesIter.next
              simp [hcv, hf1, hpos, hg1]
            · have hnext : (⟨c⟩ : PossibleMovesIter).next b =
                  some (some (b.hstates.index_to_id j),
                    ⟨j + b.vstates.length + 1⟩) := by
                unfold PossibleMovesIter.next
                simp [hcv, hf1, hpos, hg1]
              have heq : j + b.vstates.length + 1 - b.vstates.length = j + 1 := by
                omega
              have hlen2 : (freeBarsSpecFrom b.hstates (j + 1)).length ≤ fuel := by
                rw [hf2, freeBarsSpec_eq_from_zero, hg4] at hlen
                simp at hlen
                omega
              have hih := (run_spec b hv hh fuel (j + b.vstates.length + 1)).2
                (by omega) (by rw [heq]; exact hlen2)
              unfold runPossibleMoves
              rw [hnext]
              show b.hstates.index_to_id j ::
                runPossibleMoves b fuel ⟨j + b.vstates.length + 1⟩ = _
              rw [hih, heq, hf2, freeBarsSpec_eq_from_zero, hg4]
              rfl
          · have hend : freeBarsSpec b.hstates = [] := by
              rw [freeBarsSpec_eq_from_zero]
              exact freeBarsSpecFrom_end b.hstates (by omega)
            rw [hf2, hend]
            unfold runPossibleMoves PossibleMovesIter.next
            simp [hcv, hf1, hpos]
        · -- a free vertical edge exists at index `i ≥ c`
          have hnext : (⟨c⟩ : PossibleMovesIter).next b =
              some (some (b.vstates.index_to_id i), ⟨i + 1⟩) := by
            unfold PossibleMovesIter.next
            simp [hcv, hf1]
          have hlen2 : (freeBarsSpecFrom b.vstates (i + 1)).length +
              (freeBarsSpec b.hstates).length ≤ fuel := by
            rw [hf4] at hlen
            simp at hlen
            omega
          have hih := (run_spec b hv hh fuel (i + 1)).1 (by omega) hlen2
          unfold runPossibleMoves
          rw [hnext]
          show b.vstates.index_to_id i ::
            runPossibleMoves b fuel ⟨i + 1⟩ = _
          rw [hih, hf4]
          rfl
      · -- the cursor is exactly at the end of the vertical segment
        have hceq : c = b.vstates.length := by omega
        have h0 : c - b.vstates.length = 0 := by omega
        have hvend : freeBarsSpecFrom b.vstates c = [] :=
          freeBarsSpecFrom_end b.vstates (by omega)
        by_cases hpos : 0 < b.hstates.length
        · rcases first_free_spec b.hstates hh b.hstates.length 0 (by omega)
              with ⟨hg1, hg2⟩ | ⟨j, hg1, hjle, hjlt, hg4⟩
          · rw [hvend, freeBarsSpec_eq_from_zero, hg2]
            unfold runPossibleMoves PossibleMovesIter.next
            simp [hcv, hpos, hg1, h0]
          · have hnext : (⟨c⟩ : PossibleMovesIter).next b =
                some (some (b.hstates.index_to_id j),
                  ⟨j + b.vstates.length + 1⟩) := by
              unfold PossibleMovesIter.next
              simp [hcv, hpos, hg1, h0]
            have heq : j + b.vstates.length + 1 - b.vstates.length = j + 1 := by
              omega
            have hlen2 : (freeBarsSpecFrom b.hstates (j + 1)).length ≤ fuel := by
              rw [hvend, freeBarsSpec_eq_from_zero, hg4] at hlen
              simp at hlen
              omega
            have hih := (run_spec b hv hh fuel (j + b.vstates.length + 1)).2
              (by omega) (by rw [heq]; exact hlen2)
            unfold runPossibleMoves
            rw [hnext]
            show b.hstates.index_to_id j ::
              runPossibleMoves b fuel ⟨j + b.vstates.length + 1⟩ = _
            rw [hih, heq, hvend, freeBarsSpec_eq_from_zero, hg4]
            rfl
        · have hend : freeBarsSpec b.hstates = [] := by
            rw [freeBarsSpec_eq_from_zero]
            exact freeBarsSpecFrom_end b.hstates (by omega)
          rw [hvend, hend]
          unfold runPossibleMoves PossibleMovesIter.next
          simp [hcv, hpos, h0]
    · intro hc hlen
      have hcv : ¬ c < b.vstates.length := by omega
      by_cases hch : c - b.vstates.length < b.hstates.length
      · rcases first_free_spec b.hstates hh
            (b.hstates.length - (c - b.vstates.length)) (c - b.vstates.length)
            (by omega)
            with ⟨hg1, hg2⟩ | ⟨j, hg1, hjle, hjlt, hg4⟩
        · rw [hg2]
          unfold runPossibleMoves PossibleMovesIter.next
          simp [hcv, hch, hg1]
        · have hnext : (⟨c⟩ : PossibleMovesIter).next b =
              some (some (b.hstates.index_to_id j),
                ⟨j + b.vstates.length + 1⟩) := by
            unfold PossibleMovesIter.next
            simp [hcv, hch, hg1]
          have heq : j + b.vstates.length + 1 - b.vstates.length = j + 1 := by
            omega
          have hlen2 : (freeBarsSpecFrom b.hstates (j + 1)).length ≤ fuel := by
            rw [hg4] at hlen
            simp at hlen
            omega
          have hih := (run_spec b hv hh fuel (j + b.vstates.length + 1)).2
            (by omega) (by rw [heq]; exact hlen2)
          unfold runPossibleMoves
          rw [hnext]
          show b.hstates.index_to_id j ::
            runPossibleMoves b fuel ⟨j + b.vstates.length + 1⟩ = _
          rw [hih, heq, hg4]
      · have hend : freeBarsSpecFrom b.hstates (c - b.vstates.length) = [] :=
          freeBarsSpecFrom_end b.hstates (by omega)
        rw [hend]
        unfold runPossibleMoves PossibleMovesIter.next
        simp [hcv, hch]

theorem freeBarsSpecFrom_length_le (v : BarVec) (c : Nat) :
    (freeBarsSpecFrom v c).length ≤ v.length - c := by
  unfold freeBarsSpecFrom
  calc (List.filterMap _ (List.range' c (v.length - c))).length
      ≤ (List.range' c (v.length - c)).length := List.length_filterMap_le _ _
    _ = v.length - c := List.length_range' _ _ _

/-- The legal-move enumeration on a well-formed board: all free vertical
edges in row-major index order, then all free horizontal edges. -/
theorem possibleMovesList_spec (b : BoardState) (hwf : b.WF) :
    possibleMovesList b = freeBarsSpec b.vstates ++ freeBarsSpec b.hstates := by
  unfold possibleMovesList
  have hb : (freeBarsSpecFrom b.vstates 0).length + (freeBarsSpec b.hstates).length ≤
      b.vstates.length + b.hstates.length := by
    have h1 := freeBarsSpecFrom_length_le b.vstates 0
    have h2 := freeBarsSpecFrom_length_le b.hstates 0
    rw [freeBarsSpec_eq_from_zero]
    omega
  have h := (run_spec b hwf.vlen hwf.hlen
    (b.vstates.length + b.hstates.length) 0).1 (by omega) hb
  rw [h, freeBarsSpec_eq_from_zero b.vstates]

/-- C7: Enumeration order determinism — on a well-formed board the
legal-move enumeration yields exactly the currently-free edges, all free
vertical edges in row-major index order (index `i` naming column
`i % width` and row `i / width`) followed by all free horizontal edges in
row-major index order. -/
theorem C7_enumeration_order (b : BoardState) (hwf : b.WF) :
    possibleMovesList b = freeBarsSpec b.vstates ++ freeBarsSpec b.hstates :=
  possibleMovesList_spec b hwf

theorem C7_enumeration_order_witness :
    c4After.WF ∧
    possibleMovesList c4After =
      freeBarsSpec c4After.vstates ++ freeBarsSpec c4After.hstates :=
  ⟨by decide, C7_enumeration_order c4After (by decide)⟩

theorem freeBarsSpec_eq_nil (v : BarVec) (hlen : v.vec.length = v.length)
    (h : ∀ cs ∈ v.vec, cs ≠ CellState.Free) : freeBarsSpec v = [] := by
  unfold freeBarsSpec
  apply List.filterMap_eq_nil.mpr
  intro i hi
  have hilt : i < v.vec.length := by
    rw [hlen]
    exact List.mem_range.mp hi
  rcases hg : v.vec.get? i with _ | st
  · rw [List.get?_eq_get hilt] at hg
  · have hmem : st ∈ v.vec := List.get?_mem hg
    have hne := h st hmem
    rcases st with _ | p
    · exact absurd rfl hne
    · rfl

/-- C6: Terminal exhaustiveness — on a reachable board whose edges are all
Owned, every cell is Owned and the legal-move enumeration is empty. -/
theorem C6_terminal_exhaustiveness (b : BoardState) (hr : b.Reachable)
    (hev : ∀ cs ∈ b.vstates.vec, cs ≠ CellState.Free)
    (heh : ∀ cs ∈ b.hstates.vec, cs ≠ CellState.Free) :
    (∀ cs ∈ b.cellstates, cs ≠ CellState.Free) ∧ possibleMovesList b = [] := by
  obtain ⟨hwf, hcons⟩ := hr.wf_consistent
  have hw2 : 2 ≤ b.width := hwf.1
  have hh2 : 2 ≤ b.height := hwf.2.1
  have hclen : b.cellstates.length = (b.width - 1) * (b.height - 1) :=
    hwf.2.2.2.2.2.2.2.2.2.2
  constructor
  · intro cs hm
    obtain ⟨i, hgi⟩ := List.mem_iff_get?.mp hm
    have hilt : i < b.cellstates.length := (List.get?_eq_some.mp hgi).1
    have hwpos : 0 < b.width - 1 := by omega
    have hc : i % (b.width - 1) < b.width - 1 := Nat.mod_lt _ hwpos
    have hr' : i / (b.width - 1) < b.height - 1 := by
      rw [Nat.div_lt_iff_lt_mul hwpos]
      calc i < b.cellstates.length := hilt
        _ = (b.width - 1) * (b.height - 1) := hclen
        _ = (b.height - 1) * (b.width - 1) := Nat.mul_comm _ _
    -- each of the four bounding edges is owned
    obtain ⟨s1, hg1⟩ := BarVec.get_eq_some_of_lt (hwf.vidx_lt
      (by omega : i % (b.width - 1) < b.width) hr')
    obtain ⟨s2, hg2⟩ := BarVec.get_eq_some_of_lt (hwf.vidx_lt
      (by omega : i % (b.width - 1) + 1 < b.width) hr')
    obtain ⟨s3, hg3⟩ := BarVec.get_eq_some_of_lt (hwf.hidx_lt hc
      (by omega : i / (b.width - 1) < b.height))
    obtain ⟨s4, hg4⟩ := BarVec.get_eq_some_of_lt (hwf.hidx_lt hc
      (by omega : i / (b.width - 1) + 1 < b.height))
    have hs1 := hev s1 (List.get?_mem hg1)
    have hs2 := hev s2 (List.get?_mem hg2)
    have hs3 := heh s3 (List.get?_mem hg3)
    have hs4 := heh s4 (List.get?_mem hg4)
    have hfull : b.cell_is_full (i % (b.width - 1)) (i / (b.width - 1)) =
        some true := by
      rw [cell_is_full_reads hg1 hg2 hg3 hg4]
      simp [hs1, hs2, hs3, hs4]
    have hcell := (hcons _ _ hc hr').mpr hfull
    have hgets : b.cell_get (i % (b.width - 1)) (i / (b.width - 1)) = some cs := by
      unfold BoardState.cell_get
      rw [div_mul_add_mod]
      exact hgi
    intro hcontra
    apply hcell.1
    rw [hgets, hcontra]
  · rw [possibleMovesList_spec b hwf,
      freeBarsSpec_eq_nil b.vstates hwf.vlen hev,
      freeBarsSpec_eq_nil b.hstates hwf.hlen heh]
    rfl

/-- Witness board for terminal exhaustiveness: the completed 2×2 board
reached by the play `v(0,0), v(1,0), h(0,0), h(0,1)`. -/
def c6Final : BoardState :=
  ⟨2, 2, Player.Blue,
   ⟨2, 1, BarDirection.Vertical,
     [CellState.Player Player.Red, CellState.Player Player.Blue]⟩,
   ⟨1, 2, BarDirection.Horizontal,
     [CellState.Player Player.Red, CellState.Player Player.Blue]⟩,
   [CellState.Player Player.Blue]⟩

theorem C6_terminal_exhaustiveness_witness :
    (∀ cs ∈ c6Final.vstates.vec, cs ≠ CellState.Free) ∧
    (∀ cs ∈ c6Final.hstates.vec, cs ≠ CellState.Free) ∧
    (∀ cs ∈ c6Final.cellstates, cs ≠ CellState.Free) ∧
    possibleMovesList c6Final = [] := by
  have hr0 : c1Board.Reachable :=
    BoardState.Reachable.base 2 2 Player.Red (by decide) (by decide)
  have hr4 : c6Final.Reachable :=
    BoardState.Reachable.step _ ⟨BarDirection.Horizontal, 0, 1⟩ _
      (BoardState.Reachable.step _ ⟨BarDirection.Horizontal, 0, 0⟩ _
        (BoardState.Reachable.step _ ⟨BarDirection.Vertical, 1, 0⟩ _
          (BoardState.Reachable.step _ ⟨BarDirection.Vertical, 0, 0⟩ _
            hr0 (by decide) (by rfl))
          (by decide) (by rfl))
        (by decide) (by rfl))
      (by decide) (by rfl)
  have h := C6_terminal_exhaustiveness c6Final hr4 (by decide) (by decide)
  exact ⟨by decide, by decide, h.1, h.2⟩

/-- If every remaining key is strictly below the accumulator's, the
last-max fold keeps the accumulator. -/
theorem foldl_max_fix :
    ∀ (xs : List (BarId × Int)) (acc : BarId × Int),
    (∀ y ∈ xs, y.2 < acc.2) →
    xs.foldl (fun acc y => if acc.2 ≤ y.2 then y else acc) acc = acc
  | [], acc, _ => rfl
  | y :: xs, acc, h => by
    have hy := h y (List.mem_cons_self _ _)
    unfold List.foldl
    rw [if_neg (by omega)]
    exact foldl_max_fix xs acc (fun z hz => h z (List.mem_cons_of_mem _ hz))

/-- The last-max fold returns the element at the last index attaining the
maximal key, provided the accumulator's key does not exceed it. -/
theorem foldl_max_spec :
    ∀ (l : List (BarId × Int)) (acc : BarId × Int) (j : Nat) (x : BarId × Int),
    l.get? j = some x → acc.2 ≤ x.2 →
    (∀ k y, l.get? k = some y → y.2 ≤ x.2) →
    (∀ k y, j < k → l.get? k = some y → y.2 < x.2) →
    l.foldl (fun acc y => if acc.2 ≤ y.2 then y else acc) acc = x
  | [], acc, j, x, hget, _, _, _ => by
    simp at hget
  | a :: l', acc, 0, x, hget, hacc, hmax, hlast => by
    simp only [List.get?_cons_zero, Option.some.injEq] at hget
    subst hget
    unfold List.foldl
    rw [if_pos hacc]
    apply foldl_max_fix
    intro y hy
    obtain ⟨k, hk⟩ := List.mem_iff_get?.mp hy
    exact hlast (k + 1) y (Nat.succ_pos k) (by simpa using hk)
  | a :: l', acc, j + 1, x, hget, hacc, hmax, hlast => by
    simp only [List.get?_cons_succ] at hget
    unfold List.foldl
    have ha : a.2 ≤ x.2 := hmax 0 a rfl
    have hacc' : (if acc.2 ≤ a.2 then a else acc).2 ≤ x.2 := by
      by_cases hca : acc.2 ≤ a.2 <;> simp [hca] <;> omega
    exact foldl_max_spec l' _ j x hget hacc'
      (fun k y hk => hmax (k + 1) y (by simpa using hk))
      (fun k y hjk hk => hlast (k + 1) y (by omega) (by simpa using hk))

/-- `maxByKeyLast` (Rust's `max_by_key`) returns the element at the last
index attaining the maximal key. -/
theorem maxByKeyLast_spec (l : List (BarId × Int)) (j : Nat) (x : BarId × Int)
    (hget : l.get? j = some x)
    (hmax : ∀ k y, l.get? k = some y → y.2 ≤ x.2)
    (hlast : ∀ k y, j < k → l.get? k = some y → y.2 < x.2) :
    maxByKeyLast l = some x := by
  rcases l with _ | ⟨a, xs⟩
  · simp at hget
  show some (xs.foldl (fun acc y => if acc.2 ≤ y.2 then y else acc) a) = some x
  rcases j with _ | j'
  · simp only [List.get?_cons_zero, Option.some.injEq] at hget
    rw [hget]
    rw [foldl_max_fix xs x (fun y hy => by
      obtain ⟨k, hk⟩ := List.mem_iff_get?.mp hy
      exact hlast (k + 1) y (Nat.succ_pos k) (by simpa using hk))]
  · simp only [List.get?_cons_succ] at hget
    rw [foldl_max_spec xs a j' x hget (hmax 0 a rfl)
      (fun k y hk => hmax (k + 1) y (by simpa using hk))
      (fun k y hjk hk => hlast (k + 1) y (by omega) (by simpa using hk))]

theorem scoreMoves_get? (heur : Nat → Int) :
    ∀ (l : List BarId) (i k : Nat),
    (scoreMoves heur i l).get? k = (l.get? k).map (fun mv => (mv, heur (i + k)))
  | [], i, k => by simp [scoreMoves]
  | mv :: l, i, 0 => by simp [scoreMoves]
  | mv :: l, i, k + 1 => by
    simp only [scoreMoves, List.get?_cons_succ]
    rw [scoreMoves_get? heur l (i + 1) k]
    have h : i + 1 + k = i + (k + 1) := by omega
    rw [h]

/-- C3: Tie-break law — whenever index `j` is the latest index attaining
the maximal evaluator score at the root (with an earlier index `i` tied at
the same score, so two or more candidate moves share the maximum),
`best_move` returns the move at index `j` of the legal-move enumeration:
last maximum wins. -/
theorem C3_tie_break (root : AIState) (heur : Nat → Int) (i j : Nat)
    (hij : i < j) (hj : j < (possibleMovesList root.board_state).length)
    (htie : heur i = heur j)
    (hmax : ∀ k, k < (possibleMovesList root.board_state).length → heur k ≤ heur j)
    (hlast : ∀ k, j < k → k < (possibleMovesList root.board_state).length →
      heur k < heur j) :
    best_move root heur = (possibleMovesList root.board_state).get? j := by
  obtain ⟨mvj, hmvj⟩ : ∃ mv, (possibleMovesList root.board_state).get? j = some mv :=
    ⟨_, List.get?_eq_get hj⟩
  have hsj : (scoreMoves heur 0 (possibleMovesList root.board_state)).get? j =
      some (mvj, heur j) := by
    rw [scoreMoves_get?, hmvj]
    simp
  have hm := maxByKeyLast_spec (scoreMoves heur 0 (possibleMovesList root.board_state))
    j (mvj, heur j) hsj
    (fun k y hk => by
      rw [scoreMoves_get?] at hk
      rcases hg : (possibleMovesList root.board_state).get? k with _ | mv
      · rw [hg] at hk
        simp at hk
      · rw [hg] at hk
        simp at hk
        rw [← hk]
        exact hmax k (List.get?_eq_some.mp hg).1)
    (fun k y hjk hk => by
      rw [scoreMoves_get?] at hk
      rcases hg : (possibleMovesList root.board_state).get? k with _ | mv
      · rw [hg] at hk
        simp at hk
      · rw [hg] at hk
        simp at hk
        rw [← hk]
        exact hlast k hjk (List.get?_eq_some.mp hg).1)
  unfold best_move
  show Option.map Prod.fst
    (maxByKeyLast (scoreMoves heur 0 (possibleMovesList root.board_state))) = _
  rw [hm, hmvj]
  rfl

/-- Evaluator oracle for the tie-break witness: scores 0, 5, 0, 5 on the
four legal moves of the fresh 2×2 board, so indices 1 and 3 tie for the
maximum and index 3 (the last) must win. -/
def c3Heur : Nat → Int := fun k => if k % 2 = 1 then 5 else 0

theorem C3_tie_break_witness :
    (1 : Nat) < 3 ∧
    3 < (possibleMovesList (AIState.ofBoard c1Board).board_state).length ∧
    c3Heur 1 = c3Heur 3 ∧
    best_move (AIState.ofBoard c1Board) c3Heur =
      (possibleMovesList (AIState.ofBoard c1Board).board_state).get? 3 :=
  ⟨by decide, by decide, by decide,
    C3_tie_break (AIState.ofBoard c1Board) c3Heur 1 3 (by decide) (by decide)
      (by decide)
      (fun k _ => by
        by_cases h : k % 2 = 1 <;> simp [c3Heur, h])
      (fun k hk1 hk2 => by
        have hlen4 :
            (possibleMovesList (AIState.ofBoard c1Board).board_state).length = 4 := by
          decide
        rw [hlen4] at hk2
        exact absurd hk2 (by omega))⟩

/-- C9: `best_move` emptiness law — `best_move` returns `None` exactly
when the legal-move enumeration at the root is empty; an empty enumeration
produces an ordinary `None` result, not a panic. -/
theorem C9_best_move_none_iff (root : AIState) (heur : Nat → Int) :
    best_move root heur = none ↔ possibleMovesList root.board_state = [] := by
  unfold best_move
  rcases hm : possibleMovesList root.board_state with _ | ⟨a, l⟩
  · simp [scoreMoves, maxByKeyLast]
  · simp [scoreMoves, maxByKeyLast]

/-- Reading a grid at the coordinates of `index_to_id` is reading the flat
index. -/
theorem BarVec.read_index_to_id (v : BarVec) (n : Nat) :
    v.get (v.index_to_id n).col (v.index_to_id n).row = v.vec.get? n := by
  show v.vec.get? (n / v.width * v.width + n % v.width) = v.vec.get? n
  rw [div_mul_add_mod]

/-- The flat slot `random_free_move` examines for a drawn index. -/
def drawnRead (b : BoardState) (n : Nat) : Option CellState :=
  if n < b.vstates.length then b.vstates.vec.get? n
  else b.hstates.vec.get? (n - b.vstates.length)

/-- `bar_get` of the drawn bar is the drawn flat read. -/
theorem bar_get_drawnBar {b : BoardState} (hwf : b.WF) (n : Nat) :
    b.bar_get (drawnBar b n) = drawnRead b n := by
  have hvd : b.vstates.direction = BarDirection.Vertical := hwf.2.2.2.2.1
  have hhd : b.hstates.direction = BarDirection.Horizontal := hwf.2.2.2.2.2.2.2.2.1
  unfold drawnBar drawnRead
  by_cases hlt : n < b.vstates.length
  · rw [if_pos hlt, if_pos hlt]
    unfold BoardState.bar_get
    show (match (b.vstates.index_to_id n).direction with
      | BarDirection.Vertical => b.vstates.get (b.vstates.index_to_id n).col
          (b.vstates.index_to_id n).row
      | BarDirection.Horizontal => b.hstates.get (b.vstates.index_to_id n).col
          (b.vstates.index_to_id n).row) = b.vstates.vec.get? n
    have hdir : (b.vstates.index_to_id n).direction = BarDirection.Vertical := hvd
    rw [hdir]
    exact BarVec.read_index_to_id b.vstates n
  · rw [if_neg hlt, if_neg hlt]
    unfold BoardState.bar_get
    show (match (b.hstates.index_to_id (n - b.vstates.length)).direction with
      | BarDirection.Vertical =>
          b.vstates.get (b.hstates.index_to_id (n - b.vstates.length)).col
            (b.hstates.index_to_id (n - b.vstates.length)).row
      | BarDirection.Horizontal =>
          b.hstates.get (b.hstates.index_to_id (n - b.vstates.length)).col
            (b.hstates.index_to_id (n - b.vstates.length)).row) =
      b.hstates.vec.get? (n - b.vstates.length)
    have hdir : (b.hstates.index_to_id (n - b.vstates.length)).direction =
        BarDirection.Horizontal := hhd
    rw [hdir]
    exact BarVec.read_index_to_id b.hstates (n - b.vstates.length)

/-- One sampling attempt, expressed through the drawn flat read. -/
theorem sample_attempts_succ (b : BoardState) (gen : Nat → Nat) (a k : Nat) :
    sample_attempts b gen a (k + 1) =
      (match drawnRead b (gen a) with
       | none => none
       | some st =>
         if st = CellState.Free then some (some (drawnBar b (gen a)))
         else sample_attempts b gen (a + 1) k) := by
  conv_lhs => unfold sample_attempts
  unfold drawnRead drawnBar
  by_cases hlt : gen a < b.vstates.length
  · simp only [if_pos hlt, BarVec.read_index_to_id]
  · simp only [if_neg hlt, BarVec.read_index_to_id]

/-- The sampler depends only on the three draws it can make. -/
theorem sample_attempts_congr (b : BoardState) (gen gen' : Nat → Nat) :
    ∀ (k a : Nat), (∀ t, t < k → gen (a + t) = gen' (a + t)) →
    sample_attempts b gen a k = sample_attempts b gen' a k
  | 0, a, _ => rfl
  | k + 1, a, h => by
    have h0 : gen a = gen' a := by simpa using h 0 (Nat.succ_pos k)
    rw [sample_attempts_succ, sample_attempts_succ, h0,
      sample_attempts_congr b gen gen' k (a + 1) (fun t ht => by
        have h2 := h (t + 1) (by omega)
        rw [show a + 1 + t = a + (t + 1) from by omega]
        exact h2)]

/-- Classification of a sampling run on a well-formed board with in-range
draws: it never panics; it either returns one of the drawn slots, which is
Free, or reports that all drawn slots in the attempted window were
occupied. -/
theorem sample_attempts_class (b : BoardState) (hwf : b.WF) (gen : Nat → Nat)
    (hgen : ∀ t, gen t < b.vstates.length + b.hstates.length) :
    ∀ (k a : Nat),
    (∃ e, sample_attempts b gen a k = some (some e) ∧
      b.bar_get e = some CellState.Free ∧
      ∃ t, a ≤ t ∧ t < a + k ∧ e = drawnBar b (gen t)) ∨
    (sample_attempts b gen a k = some none ∧
      ∀ t, a ≤ t → t < a + k → b.bar_get (drawnBar b (gen t)) ≠ some CellState.Free)
  | 0, a => by
    right
    refine ⟨rfl, ?_⟩
    intro t h1 h2
    exact absurd h1 (by omega)
  | k + 1, a => by
    rw [sample_attempts_succ]
    have hread : ∃ st, drawnRead b (gen a) = some st := by
      unfold drawnRead
      by_cases hlt : gen a < b.vstates.length
      · rw [if_pos hlt]
        exact ⟨_, List.get?_eq_get (by rw [hwf.vlen]; exact hlt)⟩
      · rw [if_neg hlt]
        refine ⟨_, List.get?_eq_get ?_⟩
        rw [hwf.hlen]
        have := hgen a
        omega
    obtain ⟨st, hst⟩ := hread
    simp only [hst]
    by_cases hfree : st = CellState.Free
    · left
      refine ⟨drawnBar b (gen a), by rw [if_pos hfree], ?_, a, Nat.le_refl a,
        by omega, rfl⟩
      rw [bar_get_drawnBar hwf, hst, hfree]
    · rw [if_neg hfree]
      rcases sample_attempts_class b hwf gen hgen k (a + 1)
          with ⟨e, h1, h2, t, ht1, ht2, ht3⟩ | ⟨h1, h2⟩
      · exact Or.inl ⟨e, h1, h2, t, by omega, by omega, ht3⟩
      · right
        refine ⟨h1, ?_⟩
        intro t ht1 ht2
        by_cases hta : t = a
        · subst hta
          rw [bar_get_drawnBar hwf, hst]
          intro hcon
          exact hfree (Option.some.inj hcon)
        · exact h2 t (by omega) (by omega)

theorem freeBarsSpec_ne_nil (v : BarVec) (hlen : v.vec.length = v.length)
    (h : ∃ cs ∈ v.vec, cs = CellState.Free) : freeBarsSpec v ≠ [] := by
  obtain ⟨cs, hmem, hcs⟩ := h
  subst hcs
  obtain ⟨i, hgi⟩ := List.mem_iff_get?.mp hmem
  have hilt : i < v.vec.length := (List.get?_eq_some.mp hgi).1
  have hm : (⟨v.direction, i % v.width, i / v.width⟩ : BarId) ∈ freeBarsSpec v := by
    unfold freeBarsSpec
    apply List.mem_filterMap.mpr
    refine ⟨i, List.mem_range.mpr (by rw [← hlen]; exact hilt), ?_⟩
    rw [hgi]
  exact List.ne_nil_of_mem hm

/-- An element of the free-vertical listing reads back Free. -/
theorem mem_freeBarsSpec_v {b : BoardState} (hwf : b.WF) {e : BarId}
    (hm : e ∈ freeBarsSpec b.vstates) : b.bar_get e = some CellState.Free := by
  have hvd : b.vstates.direction = BarDirection.Vertical := hwf.2.2.2.2.1
  unfold freeBarsSpec at hm
  obtain ⟨i, _, hf⟩ := List.mem_filterMap.mp hm
  rcases hg : b.vstates.vec.get? i with _ | st <;> rw [hg] at hf
  · exact Option.noConfusion hf
  rcases st with _ | p
  · simp only [Option.some.injEq] at hf
    rw [← hf]
    unfold BoardState.bar_get
    show (match b.vstates.direction with
      | BarDirection.Vertical => b.vstates.get (i % b.vstates.width) (i / b.vstates.width)
      | BarDirection.Horizontal => b.hstates.get (i % b.vstates.width) (i / b.vstates.width)) =
      some CellState.Free
    rw [hvd]
    unfold BarVec.get
    rw [div_mul_add_mod]
    exact hg
  · exact Option.noConfusion hf

/-- An element of the free-horizontal listing reads back Free. -/
theorem mem_freeBarsSpec_h {b : BoardState} (hwf : b.WF) {e : BarId}
    (hm : e ∈ freeBarsSpec b.hstates) : b.bar_get e = some CellState.Free := by
  have hhd : b.hstates.direction = BarDirection.Horizontal := hwf.2.2.2.2.2.2.2.2.1
  unfold freeBarsSpec at hm
  obtain ⟨i, _, hf⟩ := List.mem_filterMap.mp hm
  rcases hg : b.hstates.vec.get? i with _ | st <;> rw [hg] at hf
  · exact Option.noConfusion hf
  rcases st with _ | p
  · simp only [Option.some.injEq] at hf
    rw [← hf]
    unfold BoardState.bar_get
    show (match b.hstates.direction with
      | BarDirection.Vertical => b.vstates.get (i % b.hstates.width) (i / b.hstates.width)
      | BarDirection.Horizontal => b.hstates.get (i % b.hstates.width) (i / b.hstates.width)) =
      some CellState.Free
    rw [hhd]
    unfold BarVec.get
    rw [div_mul_add_mod]
    exact hg
  · exact Option.noConfusion hf

/-- A Free `bar_get` exhibits a Free slot in one of the two arrays. -/
theorem bar_get_free_mem {b : BoardState} {e : BarId}
    (h : b.bar_get e = some CellState.Free) :
    (∃ cs ∈ b.vstates.vec, cs = CellState.Free) ∨
    (∃ cs ∈ b.hstates.vec, cs = CellState.Free) := by
  unfold BoardState.bar_get BarVec.get at h
  rcases hd : e.direction with _ | _ <;> rw [hd] at h
  · exact Or.inl ⟨CellState.Free, List.get?_mem h, rfl⟩
  · exact Or.inr ⟨CellState.Free, List.get?_mem h, rfl⟩

/-- The slot read by a draw is an entry of one of the two edge arrays. -/
theorem drawnRead_mem {b : BoardState} {n : Nat} {st : CellState}
    (h : drawnRead b n = some st) :
    st ∈ b.vstates.vec ++ b.hstates.vec := by
  unfold drawnRead at h
  by_cases hlt : n < b.vstates.length
  · rw [if_pos hlt] at h
    exact List.mem_append_left _ (List.get?_mem h)
  · rw [if_neg hlt] at h
    exact List.mem_append_right _ (List.get?_mem h)

/-- Every enumerated legal move reads back Free. -/
theorem mem_possibleMovesList_free {b : BoardState} (hwf : b.WF) {e : BarId}
    (hm : e ∈ possibleMovesList b) : b.bar_get e = some CellState.Free := by
  rw [possibleMovesList_spec b hwf] at hm
  rcases List.mem_append.mp hm with h | h
  · exact mem_freeBarsSpec_v hwf h
  · exact mem_freeBarsSpec_h hwf h

/-- If a Free slot exists, the legal-move enumeration is non-empty. -/
theorem possibleMovesList_ne_nil {b : BoardState} (hwf : b.WF)
    (hex : ∃ cs ∈ b.vstates.vec ++ b.hstates.vec, cs = CellState.Free) :
    possibleMovesList b ≠ [] := by
  rw [possibleMovesList_spec b hwf]
  obtain ⟨cs, hmem, hcs⟩ := hex
  rcases List.mem_append.mp hmem with h | h
  · intro hcon
    exact freeBarsSpec_ne_nil b.vstates hwf.vlen ⟨cs, h, hcs⟩
      (List.append_eq_nil.mp hcon).1
  · intro hcon
    exact freeBarsSpec_ne_nil b.hstates hwf.hlen ⟨cs, h, hcs⟩
      (List.append_eq_nil.mp hcon).2

/-- If no Free slot exists, the legal-move enumeration is empty. -/
theorem possibleMovesList_eq_nil_of_no_free {b : BoardState} (hwf : b.WF)
    (h : ∀ cs ∈ b.vstates.vec ++ b.hstates.vec, cs ≠ CellState.Free) :
    possibleMovesList b = [] := by
  rw [possibleMovesList_spec b hwf,
    freeBarsSpec_eq_nil b.vstates hwf.vlen
      (fun cs hm => h cs (List.mem_append_left _ hm)),
    freeBarsSpec_eq_nil b.hstates hwf.hlen
      (fun cs hm => h cs (List.mem_append_right _ hm))]
  rfl

/-- C8: random-move sampler contract.  On a well-formed board with every
draw in range of the combined edge count: the sampler consults at most the
first three draws; a Free first draw is returned immediately; three
consecutive occupied draws fall back to the materialized legal-move list
indexed uniformly by the choose oracle; every returned edge is Free; a
Free edge exists iff the sampler returns an edge; it returns no edge
exactly when every edge slot is occupied. -/
theorem C8_random_sampler (s : AIState) (gen : Nat → Nat) (choose_ix : Nat)
    (hwf : s.board_state.WF)
    (hgen : ∀ t, gen t < s.board_state.vstates.length + s.board_state.hstates.length) :
    (∀ gen' : Nat → Nat, gen' 0 = gen 0 → gen' 1 = gen 1 → gen' 2 = gen 2 →
      random_free_move s gen' choose_ix = random_free_move s gen choose_ix) ∧
    (s.board_state.bar_get (drawnBar s.board_state (gen 0)) = some CellState.Free →
      random_free_move s gen choose_ix =
        some (some (drawnBar s.board_state (gen 0)))) ∧
    ((∀ t, t < 3 →
        s.board_state.bar_get (drawnBar s.board_state (gen t)) ≠ some CellState.Free) →
      random_free_move s gen choose_ix =
        some ((possibleMovesList s.board_state).get?
          (choose_ix % (possibleMovesList s.board_state).length))) ∧
    (∀ e, random_free_move s gen choose_ix = some (some e) →
      s.board_state.bar_get e = some CellState.Free) ∧
    ((∃ cs ∈ s.board_state.vstates.vec ++ s.board_state.hstates.vec,
        cs = CellState.Free) →
      ∃ e, random_free_move s gen choose_ix = some (some e)) ∧
    (random_free_move s gen choose_ix = some none ↔
      ∀ cs ∈ s.board_state.vstates.vec ++ s.board_state.hstates.vec,
        cs ≠ CellState.Free) := by
  refine ⟨?_, ?_, ?_, ?_, ?_, ?_⟩
  · intro gen' h0 h1 h2
    have hc : sample_attempts s.board_state gen' 0 3 =
        sample_attempts s.board_state gen 0 3 :=
      sample_attempts_congr s.board_state gen' gen 3 0 (fun t ht => by
        rw [Nat.zero_add]
        match t, ht with
        | 0, _ => exact h0
        | 1, _ => exact h1
        | 2, _ => exact h2
        | n + 3, ht => exact absurd ht (by omega))
    unfold random_free_move
    rw [hc]
  · intro h1
    have hdr : drawnRead s.board_state (gen 0) = some CellState.Free := by
      rw [← bar_get_drawnBar hwf]
      exact h1
    have hs3 : sample_attempts s.board_state gen 0 3 =
        some (some (drawnBar s.board_state (gen 0))) := by
      rw [show (3 : Nat) = 2 + 1 from rfl, sample_attempts_succ]
      simp [hdr]
    unfold random_free_move
    simp only [hs3]
  · intro h2
    rcases sample_attempts_class s.board_state hwf gen hgen 3 0 with
        ⟨e, heq, hfree, t, ht0, ht3, hdrawn⟩ | ⟨heq, _⟩
    · exfalso
      rw [hdrawn] at hfree
      exact h2 t (by omega) hfree
    · unfold random_free_move
      simp only [heq]
  · intro e' he'
    rcases sample_attempts_class s.board_state hwf gen hgen 3 0 with
        ⟨e, heq, hfree, t, ht0, ht3, hdrawn⟩ | ⟨heq, _⟩
    · unfold random_free_move at he'
      simp only [heq, Option.some.injEq] at he'
      rw [← he']
      exact hfree
    · unfold random_free_move at he'
      simp only [heq, Option.some.injEq] at he'
      exact mem_possibleMovesList_free hwf (List.get?_mem he')
  · intro hex
    rcases sample_attempts_class s.board_state hwf gen hgen 3 0 with
        ⟨e, heq, hfree, t, ht0, ht3, hdrawn⟩ | ⟨heq, _⟩
    · refine ⟨e, ?_⟩
      unfold random_free_move
      simp only [heq]
    · have hne := possibleMovesList_ne_nil hwf hex
      have hpos : 0 < (possibleMovesList s.board_state).length :=
        List.length_pos.mpr hne
      have hlt : choose_ix % (possibleMovesList s.board_state).length <
          (possibleMovesList s.board_state).length := Nat.mod_lt _ hpos
      refine ⟨(possibleMovesList s.board_state).get ⟨_, hlt⟩, ?_⟩
      unfold random_free_move
      simp only [heq]
      rw [List.get?_eq_get hlt]
  · constructor
    · intro hnone
      rcases sample_attempts_class s.board_state hwf gen hgen 3 0 with
          ⟨e, heq, hfree, t, ht0, ht3, hdrawn⟩ | ⟨heq, _⟩
      · exfalso
        unfold random_free_move at hnone
        simp only [heq] at hnone
        exact Option.noConfusion (Option.some.inj hnone)
      · unfold random_free_move at hnone
        simp only [heq, Option.some.injEq] at hnone
        intro cs hmem hcs
        have hne := possibleMovesList_ne_nil hwf ⟨cs, hmem, hcs⟩
        have hpos : 0 < (possibleMovesList s.board_state).length :=
          List.length_pos.mpr hne
        have hlt := Nat.mod_lt choose_ix hpos
        rw [List.get?_eq_get hlt] at hnone
        exact Option.noConfusion hnone
    · intro hocc
      rcases sample_attempts_class s.board_state hwf gen hgen 3 0 with
          ⟨e, heq, hfree, t, ht0, ht3, hdrawn⟩ | ⟨heq, _⟩
      · exfalso
        rw [hdrawn, bar_get_drawnBar hwf] at hfree
        exact hocc _ (drawnRead_mem hfree) rfl
      · unfold random_free_move
        simp only [heq]
        rw [possibleMovesList_eq_nil_of_no_free hwf hocc]
        rfl

/-- Witness for C8 on the fresh two-by-two board: the constant-zero draw
hits the Free vertical edge at the origin on its first attempt. -/
theorem C8_random_sampler_witness :
    random_free_move ⟨c1Board, []⟩ (fun x => 0) 0 =
      some (some ⟨BarDirection.Vertical, 0, 0⟩) :=
  (C8_random_sampler ⟨c1Board, []⟩ (fun x => 0) 0 (by decide)
    (fun t => Nat.succ_pos 3)).2.1 (by decide)
